import Mathlib

/-!
The message pool of `chain/messagepool.go`.

A shallow embedding of the pending-message pool: the per-sender message set
(`msgSet`), the pool (`MessagePool`) with `Add`, `Remove`, `GetNonce`,
`Pending` and `HeadChange`, and theorems about them.

Conventions of the embedding.

* Go maps are finite maps (`Finmap`): unordered, extensional, `len` is the
  number of keys.
* `uint64` values are natural numbers; arithmetic that can overflow is reduced
  modulo `2 ^ 64` explicitly (`uint64Size`).
* The pool mutates the sets it points to in place; here every operation returns
  the new pool value.
* The chain store, the block store, serialization and signature checking are
  not part of `messagepool.go`; they are taken as a record of functions
  (`ChainDeps`) over an arbitrary chain-store state `σ`.
* A Go `error` result is `Option Error` (`none` is `nil`); operations that
  mutate the pool return the error together with the pool afterwards.
* The nonce walk of `Pending` has no bound in the source; it takes a fuel
  argument here and returns `none` when the fuel runs out.
-/

namespace Chain

/-- Number of values of a Go `uint64`. -/
def uint64Size : Nat := 2 ^ 64

/-- An `address.Address`, used by the pool only as a map key. -/
abbrev Address := Nat

/-- Modelled from the spec: the declaration of Go's `error` values reaching the
pool is not in the sources; the four kinds are the taxonomy of section 7
(malformed input, authentication failure, storage failure, chain-read
failure). -/
inductive Error where
  | serialization
  | signature
  | storage
  | chainRead
deriving DecidableEq, Repr

/-- The fields of `types.Message` the pool reads (`From`, `Nonce`); the other
fields are kept together as `Params`. -/
structure Message where
  From : Address
  Nonce : Nat
  Params : List Nat
deriving DecidableEq, Repr

/-- A `types.Signature`. -/
structure Signature where
  Data : List Nat
deriving DecidableEq, Repr

/-- A `types.SignedMessage`. -/
structure SignedMessage where
  Message : Message
  Signature : Signature
deriving DecidableEq, Repr

/-- The block handed to the block store by `ToStorageBlock`. -/
structure StorageBlock where
  RawData : List Nat
deriving DecidableEq, Repr

/-- A block header, as far as the pool sees it. -/
structure BlockHeader where
  Cid : Nat
deriving DecidableEq, Repr

/-- A `TipSet`: the blocks returned by `ts.Blocks()`. -/
structure TipSet where
  blks : List BlockHeader
deriving DecidableEq, Repr

/-- `ts.Blocks()`. -/
def TipSet.Blocks (ts : TipSet) : List BlockHeader := ts.blks

/-- The functions of other packages called by the pool, over a chain-store
state `σ` (which holds the block store `cs.bs`). -/
structure ChainDeps (σ : Type) where
  /-- `m.Message.Serialize()`. -/
  Serialize : Message → Except Error (List Nat)
  /-- `sig.Verify(addr, data)`; `none` when the signature verifies. -/
  Verify : Signature → Address → List Nat → Option Error
  /-- `m.ToStorageBlock()`. -/
  ToStorageBlock : SignedMessage → Except Error StorageBlock
  /-- `cs.bs.Put(blk)`: the error, if any, and the store afterwards. -/
  Put : σ → StorageBlock → Option Error × σ
  /-- `cs.MessagesForBlock(b)`. -/
  MessagesForBlock : σ → BlockHeader → Except Error (List SignedMessage)
  /-- `cs.SubscribeHeadChanges(f)`. -/
  SubscribeHeadChanges : σ → σ
  /-- `cs.TipSetState(cs.GetHeaviestTipSet().Cids())`. -/
  TipSetState : σ → Except Error Nat
  /-- `state.LoadStateTree(hamt.CSTFromBstore(cs.bs), stc)`. -/
  LoadStateTree : σ → Nat → Except Error Nat
  /-- `st.GetActor(addr)`, reduced to the actor's `Nonce`. -/
  GetActor : σ → Nat → Address → Except Error Nat

/-- The map `msgs` of a `msgSet`: nonce to message. -/
abbrev MsgMap := Finmap (fun _ : Nat => SignedMessage)

/-- The `msgSet` of one sender. -/
structure msgSet where
  msgs : MsgMap
  startNonce : Nat
deriving DecidableEq

/-- `len(ms.msgs)`. -/
def msgSet.len (ms : msgSet) : Nat := ms.msgs.keys.card

/-- `newMsgSet()`: an empty map, `startNonce` at its zero value. -/
def newMsgSet : msgSet :=
  { msgs := ∅, startNonce := 0 }

/-- `(*msgSet).add`. -/
def msgSet.add (ms : msgSet) (m : SignedMessage) : msgSet :=
  { msgs := ms.msgs.insert m.Message.Nonce m
    startNonce :=
      if ms.len = 0 ∨ m.Message.Nonce < ms.startNonce then m.Message.Nonce
      else ms.startNonce }

/-- The map `pending` of the pool: sender to message set. -/
abbrev PendingMap := Finmap (fun _ : Address => msgSet)

/-- The `MessagePool` (the mutex is not part of the value). -/
structure MessagePool (σ : Type) where
  pending : PendingMap
  cs : σ

variable {σ : Type}

/-- `NewMessagePool(cs)`. -/
def NewMessagePool (E : ChainDeps σ) (cs : σ) : MessagePool σ :=
  { pending := ∅, cs := E.SubscribeHeadChanges cs }

/-- `(*MessagePool).Add`: the returned error and the pool afterwards. -/
def MessagePool.Add (E : ChainDeps σ) (mp : MessagePool σ) (m : SignedMessage) :
    Option Error × MessagePool σ :=
  match E.Serialize m.Message with
  | .error e => (some e, mp)
  | .ok data =>
    match E.Verify m.Signature m.Message.From data with
    | some e => (some e, mp)
    | none =>
      match E.ToStorageBlock m with
      | .error e => (some e, mp)
      | .ok msb =>
        match E.Put mp.cs msb with
        | (some e, cs1) => (some e, { pending := mp.pending, cs := cs1 })
        | (none, cs1) =>
          let mset :=
            match mp.pending.lookup m.Message.From with
            | some s => s
            | none => newMsgSet
          (none, { pending := mp.pending.insert m.Message.From (mset.add m), cs := cs1 })

/-- The chain-state path of `GetNonce`, taken when the address has no set. -/
def chainNonce (E : ChainDeps σ) (cs : σ) (addr : Address) : Except Error Nat :=
  match E.TipSetState cs with
  | .error e => .error e
  | .ok stc =>
    match E.LoadStateTree cs stc with
    | .error e => .error e
    | .ok st =>
      match E.GetActor cs st addr with
      | .error e => .error e
      | .ok nonce => .ok nonce

/-- `(*MessagePool).GetNonce`. -/
def MessagePool.GetNonce (E : ChainDeps σ) (mp : MessagePool σ) (addr : Address) :
    Except Error Nat :=
  match mp.pending.lookup addr with
  | some mset => .ok ((mset.startNonce + mset.len) % uint64Size)
  | none => chainNonce E mp.cs addr

/-- `(*MessagePool).Remove`. -/
def MessagePool.Remove (mp : MessagePool σ) (m : SignedMessage) : MessagePool σ :=
  match mp.pending.lookup m.Message.From with
  | none => mp
  | some mset =>
    let mset1 : msgSet :=
      { msgs := mset.msgs.erase m.Message.Nonce, startNonce := mset.startNonce }
    if mset1.len = 0 then
      { pending := mp.pending.erase m.Message.From, cs := mp.cs }
    else
      { pending := mp.pending.insert m.Message.From mset1, cs := mp.cs }

/-- The inner loop of `Pending`, `for i := mset.startNonce; true; i++`, started
at `i`; `none` when the fuel runs out before a nonce without message. -/
def pendingWalk (msgs : MsgMap) : Nat → Nat → Option (List SignedMessage)
  | 0, _ => none
  | fuel + 1, i =>
    match msgs.lookup i with
    | none => some []
    | some m => (pendingWalk msgs fuel ((i + 1) % uint64Size)).map (fun out => m :: out)

/-- The outer loop of `Pending` over the senders still to visit, `out` being
the slice built so far. -/
def pendingLoop (pending : PendingMap) (fuel : Nat) :
    List Address → List SignedMessage → Option (List SignedMessage)
  | [], out => some out
  | a :: rest, out =>
    match pending.lookup a with
    | none => pendingLoop pending fuel rest out
    | some mset =>
      match pendingWalk mset.msgs fuel mset.startNonce with
      | none => none
      | some ms => pendingLoop pending fuel rest (out ++ ms)

/-- `order` is an order in which `range mp.pending` may visit the senders:
every key once. -/
def IsRangeOrder (pending : PendingMap) (order : List Address) : Prop :=
  order.Nodup ∧ ∀ a, a ∈ order ↔ a ∈ pending

/-- `(*MessagePool).Pending`. Go leaves the iteration order of a map open, so
the order of the senders is an argument; `fuel` bounds each nonce walk. -/
def MessagePool.Pending (mp : MessagePool σ) (order : List Address) (fuel : Nat) :
    Option (List SignedMessage) :=
  pendingLoop mp.pending fuel order []

/-- The loop `for _, msg := range msgs` of the revert half of `HeadChange`. -/
def addMsgs (E : ChainDeps σ) (mp : MessagePool σ) :
    List SignedMessage → Option Error × MessagePool σ
  | [] => (none, mp)
  | msg :: rest =>
    match MessagePool.Add E mp msg with
    | (some e, mp1) => (some e, mp1)
    | (none, mp1) => addMsgs E mp1 rest

/-- The loop `for _, b := range ts.Blocks()` of the revert half. -/
def revertBlocks (E : ChainDeps σ) (mp : MessagePool σ) :
    List BlockHeader → Option Error × MessagePool σ
  | [] => (none, mp)
  | b :: rest =>
    match E.MessagesForBlock mp.cs b with
    | .error e => (some e, mp)
    | .ok msgs =>
      match addMsgs E mp msgs with
      | (some e, mp1) => (some e, mp1)
      | (none, mp1) => revertBlocks E mp1 rest

/-- The loop `for _, ts := range revert`. -/
def revertTipSets (E : ChainDeps σ) (mp : MessagePool σ) :
    List TipSet → Option Error × MessagePool σ
  | [] => (none, mp)
  | ts :: rest =>
    match revertBlocks E mp ts.Blocks with
    | (some e, mp1) => (some e, mp1)
    | (none, mp1) => revertTipSets E mp1 rest

/-- The loop `for _, msg := range msgs` of the apply half of `HeadChange`. -/
def removeMsgs (mp : MessagePool σ) : List SignedMessage → MessagePool σ
  | [] => mp
  | msg :: rest => removeMsgs (mp.Remove msg) rest

/-- The loop `for _, b := range ts.Blocks()` of the apply half. -/
def applyBlocks (E : ChainDeps σ) (mp : MessagePool σ) :
    List BlockHeader → Option Error × MessagePool σ
  | [] => (none, mp)
  | b :: rest =>
    match E.MessagesForBlock mp.cs b with
    | .error e => (some e, mp)
    | .ok msgs => applyBlocks E (removeMsgs mp msgs) rest

/-- The loop `for _, ts := range apply`. -/
def applyTipSets (E : ChainDeps σ) (mp : MessagePool σ) :
    List TipSet → Option Error × MessagePool σ
  | [] => (none, mp)
  | ts :: rest =>
    match applyBlocks E mp ts.Blocks with
    | (some e, mp1) => (some e, mp1)
    | (none, mp1) => applyTipSets E mp1 rest

/-- `(*MessagePool).HeadChange`: the returned error and the pool afterwards. -/
def MessagePool.HeadChange (E : ChainDeps σ) (mp : MessagePool σ)
    (revert apply : List TipSet) : Option Error × MessagePool σ :=
  match revertTipSets E mp revert with
  | (some e, mp1) => (some e, mp1)
  | (none, mp1) => applyTipSets E mp1 apply

/-- The pool states that calls of `Add`, `Remove` and `HeadChange`, failing or
not, produce from the pool made by `NewMessagePool(cs0)`. -/
inductive Reachable (E : ChainDeps σ) (cs0 : σ) : MessagePool σ → Prop
  | init : Reachable E cs0 (NewMessagePool E cs0)
  | add {mp : MessagePool σ} (m : SignedMessage) :
      Reachable E cs0 mp → Reachable E cs0 (mp.Add E m).2
  | remove {mp : MessagePool σ} (m : SignedMessage) :
      Reachable E cs0 mp → Reachable E cs0 (mp.Remove m)
  | headChange {mp : MessagePool σ} (revert apply : List TipSet) :
      Reachable E cs0 mp → Reachable E cs0 (mp.HeadChange E revert apply).2

/-! ## A concrete instance, for evaluating the definitions -/

/-- A chain store for examples: the blocks written to its block store. -/
abbrev DemoStore := List StorageBlock

/-- Messages resolved for the example blocks. -/
def demoBlockMessages (tbl : Nat → Option (List SignedMessage)) (b : BlockHeader) :
    Except Error (List SignedMessage) :=
  match tbl b.Cid with
  | some msgs => .ok msgs
  | none => .error Error.chainRead

/-- Example collaborators: parameters must be bytes to serialize, a signature
verifies when it spells the sender followed by the payload, the block store
refuses a write when `full` holds of it, and `tbl` gives the messages of each
block. -/
def demoDeps (full : DemoStore → Bool) (tbl : Nat → Option (List SignedMessage)) :
    ChainDeps DemoStore :=
  { Serialize := fun m =>
      if m.Params.all (fun x => decide (x < 256)) then .ok (m.Nonce :: m.Params)
      else .error Error.serialization
    Verify := fun sig addr data =>
      if sig.Data = addr :: data then none else some Error.signature
    ToStorageBlock := fun m => .ok { RawData := m.Message.From :: m.Message.Nonce :: m.Message.Params }
    Put := fun cs blk =>
      if full cs then (some Error.storage, cs) else (none, blk :: cs)
    MessagesForBlock := fun _ b => demoBlockMessages tbl b
    SubscribeHeadChanges := fun cs => cs
    TipSetState := fun _ => .ok 0
    LoadStateTree := fun _ root => .ok root
    GetActor := fun _ _ addr => .ok addr }

/-- Example collaborators with a block store that never fills up and no
resolvable block. -/
def demoEnv : ChainDeps DemoStore := demoDeps (fun _ => false) (fun _ => none)

/-- A correctly signed example message of sender `a` with nonce `n`. -/
def demoMsg (a : Address) (n : Nat) (params : List Nat) : SignedMessage :=
  { Message := { From := a, Nonce := n, Params := params }
    Signature := { Data := a :: n :: params } }

/-- An example message set holding example messages of sender `a` at the
nonces `ns`, with watermark `w`. -/
def demoSet (a : Address) (w : Nat) (ns : List Nat) : msgSet :=
  { msgs := ns.foldl (fun acc n => acc.insert n (demoMsg a n [])) ∅, startNonce := w }

/-! ## Predicates used in the statements -/

/-- The set `Add` inserts into: the sender's set, or a new one. -/
def senderSet (pending : PendingMap) (a : Address) : msgSet :=
  match pending.lookup a with
  | some s => s
  | none => newMsgSet

/-- The pool invariant: every sender in the map has a non-empty set. -/
def NonEmptySets (pending : PendingMap) : Prop :=
  ∀ a s, pending.lookup a = some s → 0 < s.len

/-- The number `w` is the least of the numbers `ns`. -/
def IsMinOf (w : Nat) (ns : List Nat) : Prop :=
  w ∈ ns ∧ ∀ n ∈ ns, w ≤ n

/-- Every stored message sits in the slot it names: in the set of its sender,
under its own nonce. -/
def SlotConsistent (pending : PendingMap) : Prop :=
  ∀ a s n m, pending.lookup a = some s → s.msgs.lookup n = some m →
    m.Message.From = a ∧ m.Message.Nonce = n

/-- The nonce `g` is the smallest nonce at or above the watermark of `ms` at
which `ms` stores no message. -/
def IsFirstGap (ms : msgSet) (g : Nat) : Prop :=
  ms.startNonce ≤ g ∧ g < uint64Size ∧ ms.msgs.lookup g = none ∧
    ∀ j, ms.startNonce ≤ j → j < g → j ∈ ms.msgs

/-- The messages `ms` stores at the nonces `w, w+1, ..., g-1`, `w` being its
watermark, in increasing order of nonce. -/
def storedRun (ms : msgSet) (g : Nat) : List SignedMessage :=
  (List.range' ms.startNonce (g - ms.startNonce)).filterMap (fun n => ms.msgs.lookup n)

/-- The pool of the example of section 8: sender 1 with pending nonces 5, 6, 7
and 9, built by four `Add` calls. -/
def demoPool : MessagePool DemoStore :=
  (addMsgs demoEnv (NewMessagePool demoEnv [])
    [demoMsg 1 5 [], demoMsg 1 6 [], demoMsg 1 7 [], demoMsg 1 9 []]).2

/-- The pool stores `M` in the slot `M` names: the set of `M`'s sender holds `M`
at `M`'s nonce. -/
def SlotHolds (pending : PendingMap) (M : SignedMessage) : Prop :=
  ∃ s, pending.lookup M.Message.From = some s ∧ s.msgs.lookup M.Message.Nonce = some M

/-- Two messages name the same slot: same sender and same nonce. -/
def SameSlot (x M : SignedMessage) : Prop :=
  x.Message.From = M.Message.From ∧ x.Message.Nonce = M.Message.Nonce

/-- The example message of block 3 whose signature does not verify. -/
def demoBadMsg : SignedMessage :=
  { Message := { From := 2, Nonce := 0, Params := [] }, Signature := { Data := [] } }

/-- Example blocks: block 0 holds two different messages of sender 1 with
nonce 5, block 1 holds one message, block 3 holds a message with a signature
that does not verify between two good ones, block 4 holds three messages in
three different slots; other blocks do not resolve. -/
def demoTable : Nat → Option (List SignedMessage)
  | 0 => some [demoMsg 1 5 [], demoMsg 1 5 [7]]
  | 1 => some [demoMsg 1 5 []]
  | 3 => some [demoMsg 1 6 [], demoBadMsg, demoMsg 1 7 []]
  | 4 => some [demoMsg 1 5 [], demoMsg 1 6 [], demoMsg 2 5 []]
  | _ => none

/-- Example collaborators resolving the blocks of `demoTable`. -/
def demoChain : ChainDeps DemoStore := demoDeps (fun _ => false) demoTable

/-- The sender `a` has no message stored at nonce `n`. -/
def SlotEmpty (pending : PendingMap) (a : Address) (n : Nat) : Prop :=
  ∀ s, pending.lookup a = some s → s.msgs.lookup n = none

/-- The messages of the blocks of the tipsets `tss`, concatenated in order,
`msgsOf` giving the messages of a block. -/
def blockMsgs (msgsOf : BlockHeader → List SignedMessage) (tss : List TipSet) :
    List SignedMessage :=
  (tss.flatMap TipSet.Blocks).flatMap msgsOf

/-- The messages of the example blocks. -/
def demoMsgsOf (b : BlockHeader) : List SignedMessage :=
  (demoTable b.Cid).getD []

/-- Example collaborators whose block store is full from the start. -/
def demoFull : ChainDeps DemoStore := demoDeps (fun _ => true) demoTable

/-- An example message whose parameters do not serialize. -/
def demoUnserializable : SignedMessage :=
  { Message := { From := 1, Nonce := 5, Params := [300] }, Signature := { Data := [1, 5, 300] } }

/-- The watermark of every set is at most every nonce stored in the set. -/
def WatermarkLowerBound (pending : PendingMap) : Prop :=
  ∀ a s, pending.lookup a = some s → ∀ n, n ∈ s.msgs → s.startNonce ≤ n

/-- What the nonce walk of `Pending` yields for the set `s` when it is given
`len(s.msgs) + 1` steps. -/
def walkOut (s : msgSet) : List SignedMessage :=
  (pendingWalk s.msgs (s.len + 1) s.startNonce).getD []

/-- The part of the output of `Pending` contributed by the sender `a`. -/
def senderOut (pending : PendingMap) (a : Address) : List SignedMessage :=
  match pending.lookup a with
  | some s => walkOut s
  | none => []

/-- The example pool with one more sender: sender 2 with a single pending
message, at nonce 4. -/
def demoTwo : MessagePool DemoStore :=
  (demoPool.Add demoEnv (demoMsg 2 4 [])).2

/-- The example pool with one more sender: sender 2 with a single pending
message at the largest nonce, `2 ^ 64 - 1`, where the nonce walk wraps. -/
def demoWrap : MessagePool DemoStore :=
  (demoPool.Add demoEnv (demoMsg 2 18446744073709551615 [])).2

/-- The messages `msgs` of a block hold no two different messages with the same
sender and the same nonce: what a block on the chain satisfies (the comment in
`Remove`: two messages with the same sender cannot have the same nonce). -/
def NoDuplicateSlot (msgs : List SignedMessage) : Prop :=
  ∀ x ∈ msgs, ∀ y ∈ msgs, SameSlot x y → x = y

/-! ## The pool mutex and other callers

`Add`, `GetNonce`, `Remove` and `Pending` begin with `mp.lk.Lock()` and defer
`mp.lk.Unlock()`; `HeadChange` contains no call on `mp.lk` of its own, it calls
`cs.MessagesForBlock`, `mp.Add` and `mp.Remove`. A call is listed as the events
it consists of; callers are numbered, and a schedule is a list of events, each
with the number of the caller it belongs to. -/

/-- An event of a call on the pool. -/
inductive Event where
  /-- `mp.lk.Lock()` returns. -/
  | Lock
  /-- The deferred `mp.lk.Unlock()`. -/
  | Unlock
  /-- The body of `Add(m)`, between its `Lock` and `Unlock`. -/
  | AddBody (m : SignedMessage)
  /-- The body of `Remove(m)`. -/
  | RemoveBody (m : SignedMessage)
  /-- The body of `GetNonce(addr)`. -/
  | GetNonceBody (addr : Address)
  /-- The body of `Pending()`. -/
  | PendingBody
  /-- The call `cs.MessagesForBlock(b)` made by `HeadChange`. -/
  | Resolve (b : BlockHeader)
deriving DecidableEq, Repr

/-- A call made by `HeadChange` or by another caller of the pool. -/
inductive Call where
  | MessagesForBlock (b : BlockHeader)
  | Add (m : SignedMessage)
  | Remove (m : SignedMessage)
  | GetNonce (addr : Address)
  | Pending
deriving DecidableEq, Repr

/-- The events of a call, in program order: the four methods of the pool lock
on entry and unlock on return, `cs.MessagesForBlock` does not touch `mp.lk`. -/
def Call.events : Call → List Event
  | .MessagesForBlock b => [Event.Resolve b]
  | .Add m => [Event.Lock, Event.AddBody m, Event.Unlock]
  | .Remove m => [Event.Lock, Event.RemoveBody m, Event.Unlock]
  | .GetNonce addr => [Event.Lock, Event.GetNonceBody addr, Event.Unlock]
  | .Pending => [Event.Lock, Event.PendingBody, Event.Unlock]

/-- Whether the call is one of the four methods that take the mutex. -/
def Call.locks : Call → Bool
  | .MessagesForBlock _ => false
  | _ => true

/-- The pool after an event: the bodies of `Add` and `Remove` change it. -/
def Event.effect (E : ChainDeps σ) : Event → MessagePool σ → MessagePool σ
  | .AddBody m, p => (p.Add E m).2
  | .RemoveBody m, p => p.Remove m
  | _, p => p

/-- The pool after a call. -/
def Call.effect (E : ChainDeps σ) (c : Call) (p : MessagePool σ) : MessagePool σ :=
  c.events.foldl (fun q e => e.effect E q) p

/-- The pool after a list of calls made one after the other. -/
def runCalls (E : ChainDeps σ) (p : MessagePool σ) (calls : List Call) : MessagePool σ :=
  calls.foldl (fun q c => c.effect E q) p

/-- The calls made by the loop `addMsgs`, in order. -/
def addMsgsCalls (E : ChainDeps σ) (mp : MessagePool σ) : List SignedMessage → List Call
  | [] => []
  | msg :: rest =>
    Call.Add msg ::
      match MessagePool.Add E mp msg with
      | (some _, _) => []
      | (none, mp1) => addMsgsCalls E mp1 rest

/-- The calls made by the loop `revertBlocks`. -/
def revertBlocksCalls (E : ChainDeps σ) (mp : MessagePool σ) : List BlockHeader → List Call
  | [] => []
  | b :: rest =>
    Call.MessagesForBlock b ::
      match E.MessagesForBlock mp.cs b with
      | .error _ => []
      | .ok msgs =>
        addMsgsCalls E mp msgs ++
          match addMsgs E mp msgs with
          | (some _, _) => []
          | (none, mp1) => revertBlocksCalls E mp1 rest

/-- The calls made by the loop `revertTipSets`. -/
def revertTipSetsCalls (E : ChainDeps σ) (mp : MessagePool σ) : List TipSet → List Call
  | [] => []
  | ts :: rest =>
    revertBlocksCalls E mp ts.Blocks ++
      match revertBlocks E mp ts.Blocks with
      | (some _, _) => []
      | (none, mp1) => revertTipSetsCalls E mp1 rest

/-- The calls made by the loop `removeMsgs`. -/
def removeMsgsCalls (msgs : List SignedMessage) : List Call :=
  msgs.map Call.Remove

/-- The calls made by the loop `applyBlocks`. -/
def applyBlocksCalls (E : ChainDeps σ) (mp : MessagePool σ) : List BlockHeader → List Call
  | [] => []
  | b :: rest =>
    Call.MessagesForBlock b ::
      match E.MessagesForBlock mp.cs b with
      | .error _ => []
      | .ok msgs => removeMsgsCalls msgs ++ applyBlocksCalls E (removeMsgs mp msgs) rest

/-- The calls made by the loop `applyTipSets`. -/
def applyTipSetsCalls (E : ChainDeps σ) (mp : MessagePool σ) : List TipSet → List Call
  | [] => []
  | ts :: rest =>
    applyBlocksCalls E mp ts.Blocks ++
      match applyBlocks E mp ts.Blocks with
      | (some _, _) => []
      | (none, mp1) => applyTipSetsCalls E mp1 rest

/-- The calls made by one `HeadChange` started on the pool `mp` and left
undisturbed, in order. -/
def HeadChangeCalls (E : ChainDeps σ) (mp : MessagePool σ) (revert apply : List TipSet) :
    List Call :=
  revertTipSetsCalls E mp revert ++
    match revertTipSets E mp revert with
    | (some _, _) => []
    | (none, mp1) => applyTipSetsCalls E mp1 apply

/-- The events of the calls `calls` made by caller `t`, as a schedule. -/
def eventsOf (t : Nat) (calls : List Call) : List (Nat × Event) :=
  (calls.flatMap Call.events).map (fun e => (t, e))

/-- One event of caller `t` under `sync.Mutex`, `holder` being the caller that
holds `mp.lk`: `Lock` returns only when the mutex is free, `Unlock` is by the
holder, the body of a method runs while its caller holds the mutex; `none` when
the event cannot happen in that state. -/
def mutexStep (holder : Option Nat) (t : Nat) : Event → Option (Option Nat)
  | .Lock => if holder = none then some (some t) else none
  | .Unlock => if holder = some t then some none else none
  | .Resolve _ => some holder
  | _ => if holder = some t then some holder else none

/-- The holder of the mutex after the schedule `sch`, or `none` when the
schedule cannot happen. -/
def mutexAfter : Option Nat → List (Nat × Event) → Option (Option Nat)
  | holder, [] => some holder
  | holder, (t, e) :: rest =>
    match mutexStep holder t e with
    | none => none
    | some h => mutexAfter h rest

/-- The pool after the events of the schedule `sch`. -/
def poolAfter (E : ChainDeps σ) (p : MessagePool σ) (sch : List (Nat × Event)) :
    MessagePool σ :=
  sch.foldl (fun q te => te.2.effect E q) p

/-! ## Finite maps -/

theorem keys_insert_eq {β : Nat → Type} (a : Nat) (b : β a) (s : Finmap β) :
    (s.insert a b).keys = insert a s.keys := by
  ext x
  simp [Finmap.mem_keys, Finmap.mem_insert]

theorem erase_of_not_mem {β : Nat → Type} (a : Nat) (s : Finmap β) (h : a ∉ s) :
    s.erase a = s := by
  apply Finmap.ext_lookup
  intro x
  by_cases hx : x = a
  · subst hx
    rw [Finmap.lookup_erase]
    exact (Finmap.lookup_eq_none.2 h).symm
  · exact Finmap.lookup_erase_ne hx

theorem insert_of_lookup {β : Nat → Type} (a : Nat) (b : β a) (s : Finmap β)
    (h : s.lookup a = some b) : s.insert a b = s := by
  apply Finmap.ext_lookup
  intro x
  by_cases hx : x = a
  · subst hx
    rw [Finmap.lookup_insert, h]
  · exact Finmap.lookup_insert_of_ne _ hx

theorem card_keys_pos_of_lookup {β : Nat → Type} {a : Nat} {b : β a} {s : Finmap β}
    (h : s.lookup a = some b) : 0 < s.keys.card :=
  Finset.card_pos.2 ⟨a, Finmap.mem_keys.2 (Finmap.mem_of_lookup_eq_some h)⟩

/-! ## The message set -/

theorem msgSet.len_add_pos (ms : msgSet) (m : SignedMessage) : 0 < (ms.add m).len :=
  card_keys_pos_of_lookup (Finmap.lookup_insert ms.msgs)

theorem msgSet.lookup_add_self (ms : msgSet) (m : SignedMessage) :
    (ms.add m).msgs.lookup m.Message.Nonce = some m :=
  Finmap.lookup_insert ms.msgs

theorem msgSet.lookup_add_ne (ms : msgSet) (m : SignedMessage) {n : Nat}
    (h : n ≠ m.Message.Nonce) : (ms.add m).msgs.lookup n = ms.msgs.lookup n :=
  Finmap.lookup_insert_of_ne ms.msgs h

theorem msgSet.len_newMsgSet : newMsgSet.len = 0 := by
  simp [msgSet.len, newMsgSet]

/-! ## Results of `Add` and `Remove` -/

/-- The two outcomes of `Add`: an error with the pending map untouched, or no
error and the message inserted into its sender's set. -/
theorem Add_cases (E : ChainDeps σ) (mp : MessagePool σ) (m : SignedMessage) :
    ((∃ e, (mp.Add E m).1 = some e) ∧ (mp.Add E m).2.pending = mp.pending) ∨
    ((mp.Add E m).1 = none ∧
      (mp.Add E m).2.pending =
        mp.pending.insert m.Message.From ((senderSet mp.pending m.Message.From).add m)) := by
  unfold MessagePool.Add senderSet
  cases h1 : E.Serialize m.Message with
  | error e => exact Or.inl ⟨⟨e, rfl⟩, rfl⟩
  | ok data =>
    simp only []
    cases h2 : E.Verify m.Signature m.Message.From data with
    | some e => exact Or.inl ⟨⟨e, rfl⟩, rfl⟩
    | none =>
      simp only []
      cases h3 : E.ToStorageBlock m with
      | error e => exact Or.inl ⟨⟨e, rfl⟩, rfl⟩
      | ok msb =>
        simp only []
        rcases h4 : E.Put mp.cs msb with ⟨_ | e, cs1⟩
        · exact Or.inr ⟨rfl, rfl⟩
        · exact Or.inl ⟨⟨e, rfl⟩, rfl⟩

/-- The three outcomes of `Remove`: no set for the sender, the set emptied and
dropped, or the set kept without the nonce. -/
theorem Remove_cases (mp : MessagePool σ) (m : SignedMessage) :
    (mp.pending.lookup m.Message.From = none ∧ mp.Remove m = mp) ∨
    (∃ s, mp.pending.lookup m.Message.From = some s ∧
      (s.msgs.erase m.Message.Nonce).keys.card = 0 ∧
      mp.Remove m = { pending := mp.pending.erase m.Message.From, cs := mp.cs }) ∨
    (∃ s, mp.pending.lookup m.Message.From = some s ∧
      0 < (s.msgs.erase m.Message.Nonce).keys.card ∧
      mp.Remove m =
        { pending := mp.pending.insert m.Message.From
            { msgs := s.msgs.erase m.Message.Nonce, startNonce := s.startNonce }
          cs := mp.cs }) := by
  unfold MessagePool.Remove
  cases h : mp.pending.lookup m.Message.From with
  | none => exact Or.inl ⟨rfl, rfl⟩
  | some s =>
    right
    by_cases hc : (s.msgs.erase m.Message.Nonce).keys.card = 0
    · left
      refine ⟨s, rfl, hc, ?_⟩
      simp only [msgSet.len]
      rw [if_pos hc]
    · right
      refine ⟨s, rfl, Nat.pos_of_ne_zero hc, ?_⟩
      simp only [msgSet.len]
      rw [if_neg hc]

/-! ## Invariants of the operations -/

theorem addMsgs_preserves (E : ChainDeps σ) (P : MessagePool σ → Prop)
    (hadd : ∀ mp m, P mp → P (mp.Add E m).2) :
    ∀ (msgs : List SignedMessage) (mp : MessagePool σ), P mp → P (addMsgs E mp msgs).2 := by
  intro msgs
  induction msgs with
  | nil => intro mp h; exact h
  | cons msg rest ih =>
    intro mp h
    have h1 := hadd mp msg h
    unfold addMsgs
    rcases hA : mp.Add E msg with ⟨_ | e, mp1⟩
    · rw [hA] at h1
      exact ih mp1 h1
    · rw [hA] at h1
      exact h1

theorem revertBlocks_preserves (E : ChainDeps σ) (P : MessagePool σ → Prop)
    (hadd : ∀ mp m, P mp → P (mp.Add E m).2) :
    ∀ (bs : List BlockHeader) (mp : MessagePool σ), P mp → P (revertBlocks E mp bs).2 := by
  intro bs
  induction bs with
  | nil => intro mp h; exact h
  | cons b rest ih =>
    intro mp h
    unfold revertBlocks
    cases hm : E.MessagesForBlock mp.cs b with
    | error e => exact h
    | ok msgs =>
      simp only []
      have h1 := addMsgs_preserves E P hadd msgs mp h
      rcases hA : addMsgs E mp msgs with ⟨_ | e, mp1⟩
      · rw [hA] at h1
        exact ih mp1 h1
      · rw [hA] at h1
        exact h1

theorem revertTipSets_preserves (E : ChainDeps σ) (P : MessagePool σ → Prop)
    (hadd : ∀ mp m, P mp → P (mp.Add E m).2) :
    ∀ (tss : List TipSet) (mp : MessagePool σ), P mp → P (revertTipSets E mp tss).2 := by
  intro tss
  induction tss with
  | nil => intro mp h; exact h
  | cons ts rest ih =>
    intro mp h
    unfold revertTipSets
    have h1 := revertBlocks_preserves E P hadd ts.Blocks mp h
    rcases hA : revertBlocks E mp ts.Blocks with ⟨_ | e, mp1⟩
    · rw [hA] at h1
      exact ih mp1 h1
    · rw [hA] at h1
      exact h1

theorem removeMsgs_preserves (P : MessagePool σ → Prop)
    (hrem : ∀ mp m, P mp → P (MessagePool.Remove mp m)) :
    ∀ (msgs : List SignedMessage) (mp : MessagePool σ), P mp → P (removeMsgs mp msgs) := by
  intro msgs
  induction msgs with
  | nil => intro mp h; exact h
  | cons msg rest ih =>
    intro mp h
    exact ih _ (hrem mp msg h)

theorem applyBlocks_preserves (E : ChainDeps σ) (P : MessagePool σ → Prop)
    (hrem : ∀ mp m, P mp → P (MessagePool.Remove mp m)) :
    ∀ (bs : List BlockHeader) (mp : MessagePool σ), P mp → P (applyBlocks E mp bs).2 := by
  intro bs
  induction bs with
  | nil => intro mp h; exact h
  | cons b rest ih =>
    intro mp h
    unfold applyBlocks
    cases hm : E.MessagesForBlock mp.cs b with
    | error e => exact h
    | ok msgs =>
      simp only []
      exact ih _ (removeMsgs_preserves P hrem msgs mp h)

theorem applyTipSets_preserves (E : ChainDeps σ) (P : MessagePool σ → Prop)
    (hrem : ∀ mp m, P mp → P (MessagePool.Remove mp m)) :
    ∀ (tss : List TipSet) (mp : MessagePool σ), P mp → P (applyTipSets E mp tss).2 := by
  intro tss
  induction tss with
  | nil => intro mp h; exact h
  | cons ts rest ih =>
    intro mp h
    unfold applyTipSets
    have h1 := applyBlocks_preserves E P hrem ts.Blocks mp h
    rcases hA : applyBlocks E mp ts.Blocks with ⟨_ | e, mp1⟩
    · rw [hA] at h1
      exact ih mp1 h1
    · rw [hA] at h1
      exact h1

theorem HeadChange_preserves (E : ChainDeps σ) (P : MessagePool σ → Prop)
    (hadd : ∀ mp m, P mp → P (mp.Add E m).2)
    (hrem : ∀ mp m, P mp → P (MessagePool.Remove mp m))
    (mp : MessagePool σ) (revert apply : List TipSet) (h : P mp) :
    P (mp.HeadChange E revert apply).2 := by
  unfold MessagePool.HeadChange
  have h1 := revertTipSets_preserves E P hadd revert mp h
  rcases hA : revertTipSets E mp revert with ⟨_ | e, mp1⟩
  · rw [hA] at h1
    exact applyTipSets_preserves E P hrem apply mp1 h1
  · rw [hA] at h1
    exact h1

/-- A property of the new pool that `Add` and `Remove` keep holds in every
reachable pool state. -/
theorem Reachable.invariant (E : ChainDeps σ) (cs0 : σ) (P : MessagePool σ → Prop)
    (h0 : P (NewMessagePool E cs0))
    (hadd : ∀ mp m, P mp → P (mp.Add E m).2)
    (hrem : ∀ mp m, P mp → P (MessagePool.Remove mp m)) :
    ∀ mp, Reachable E cs0 mp → P mp := by
  intro mp hr
  induction hr with
  | init => exact h0
  | add m _ ih => exact hadd _ m ih
  | remove m _ ih => exact hrem _ m ih
  | headChange revert apply _ ih => exact HeadChange_preserves E P hadd hrem _ revert apply ih

theorem NonEmptySets_Add (E : ChainDeps σ) (mp : MessagePool σ) (m : SignedMessage)
    (h : NonEmptySets mp.pending) : NonEmptySets (mp.Add E m).2.pending := by
  rcases Add_cases E mp m with ⟨_, hp⟩ | ⟨_, hp⟩
  · rw [hp]; exact h
  · rw [hp]
    intro a s hs
    by_cases ha : a = m.Message.From
    · subst ha
      rw [Finmap.lookup_insert] at hs
      cases hs
      exact msgSet.len_add_pos _ _
    · rw [Finmap.lookup_insert_of_ne _ ha] at hs
      exact h a s hs

theorem NonEmptySets_Remove (mp : MessagePool σ) (m : SignedMessage)
    (h : NonEmptySets mp.pending) : NonEmptySets (mp.Remove m).pending := by
  rcases Remove_cases mp m with ⟨_, hp⟩ | ⟨s, _, _, hp⟩ | ⟨s, _, hc, hp⟩
  · rw [hp]; exact h
  · rw [hp]
    intro a t ht
    by_cases ha : a = m.Message.From
    · subst ha
      simp [Finmap.lookup_erase] at ht
    · simp only [] at ht
      rw [Finmap.lookup_erase_ne ha] at ht
      exact h a t ht
  · rw [hp]
    intro a t ht
    by_cases ha : a = m.Message.From
    · subst ha
      simp only [] at ht
      rw [Finmap.lookup_insert] at ht
      cases ht
      exact hc
    · simp only [] at ht
      rw [Finmap.lookup_insert_of_ne _ ha] at ht
      exact h a t ht

theorem Reachable.nonEmptySets (E : ChainDeps σ) (cs0 : σ) (mp : MessagePool σ)
    (hr : Reachable E cs0 mp) : NonEmptySets mp.pending :=
  Reachable.invariant E cs0 (fun mp => NonEmptySets mp.pending)
    (by intro a s hs; simp [NewMessagePool, Finmap.lookup_empty] at hs)
    (fun mp m h => NonEmptySets_Add E mp m h)
    (fun mp m h => NonEmptySets_Remove mp m h) mp hr

/-! ## Claims -/

/-- C1. Pool invariant: in every pool state reachable from the new pool by
`Add`, `Remove` and `HeadChange` calls, failing or not, every sender present in
the pending map has a message set holding at least one message. -/
theorem pool_invariant_nonempty (E : ChainDeps σ) (cs0 : σ) (mp : MessagePool σ)
    (hr : Reachable E cs0 mp) (a : Address) (s : msgSet)
    (hs : mp.pending.lookup a = some s) :
    0 < s.len ∧ ∃ n m, s.msgs.lookup n = some m := by
  have hpos := Reachable.nonEmptySets E cs0 mp hr a s hs
  refine ⟨hpos, ?_⟩
  obtain ⟨n, hn⟩ := Finset.card_pos.1 hpos
  obtain ⟨m, hm⟩ := Finmap.mem_iff.1 (Finmap.mem_keys.1 hn)
  exact ⟨n, m, hm⟩

/-- Witness for `pool_invariant_nonempty`: the pool after one `Add`. -/
theorem pool_invariant_nonempty_witness :
    0 < (newMsgSet.add (demoMsg 1 5 [])).len ∧
      ∃ n m, (newMsgSet.add (demoMsg 1 5 [])).msgs.lookup n = some m :=
  pool_invariant_nonempty demoEnv []
    ((NewMessagePool demoEnv []).Add demoEnv
      (demoMsg 1 5 [])).2
    (Reachable.add _ Reachable.init) 1 (newMsgSet.add (demoMsg 1 5 [])) (by rfl)

theorem msgSet.startNonce_add_of_empty (ms : msgSet) (m : SignedMessage) (h : ms.len = 0) :
    (ms.add m).startNonce = m.Message.Nonce := by
  simp [msgSet.add, h]

theorem msgSet.startNonce_add_of_pos (ms : msgSet) (m : SignedMessage) (h : 0 < ms.len) :
    (ms.add m).startNonce = min m.Message.Nonce ms.startNonce := by
  have h0 : ms.len ≠ 0 := Nat.pos_iff_ne_zero.1 h
  simp only [msgSet.add, h0, false_or]
  by_cases hlt : m.Message.Nonce < ms.startNonce
  · rw [if_pos hlt, Nat.min_eq_left (Nat.le_of_lt hlt)]
  · rw [if_neg hlt, Nat.min_eq_right (Nat.le_of_not_lt hlt)]

theorem foldl_add_isMin (l : List SignedMessage) :
    ∀ (ms : msgSet) (ns : List Nat), 0 < ms.len → IsMinOf ms.startNonce ns →
      IsMinOf (l.foldl msgSet.add ms).startNonce (ns ++ l.map (fun m => m.Message.Nonce)) := by
  induction l with
  | nil => intro ms ns _ h; simpa using h
  | cons m rest ih =>
    intro ms ns hpos h
    have hstep : IsMinOf (ms.add m).startNonce (ns ++ [m.Message.Nonce]) := by
      rw [msgSet.startNonce_add_of_pos ms m hpos]
      constructor
      · rcases Nat.le_total m.Message.Nonce ms.startNonce with hle | hle
        · rw [Nat.min_eq_left hle]; simp
        · rw [Nat.min_eq_right hle]; exact List.mem_append_left _ h.1
      · intro n hn
        rcases List.mem_append.1 hn with hn | hn
        · exact Nat.le_trans (Nat.min_le_right _ _) (h.2 n hn)
        · rw [List.mem_singleton.1 hn]; exact Nat.min_le_left _ _
    have := ih (ms.add m) (ns ++ [m.Message.Nonce]) (msgSet.len_add_pos ms m) hstep
    simpa [List.append_assoc] using this

theorem foldl_add_newMsgSet_isMin (l : List SignedMessage) (hl : l ≠ []) :
    IsMinOf (l.foldl msgSet.add newMsgSet).startNonce (l.map (fun m => m.Message.Nonce)) := by
  cases l with
  | nil => exact absurd rfl hl
  | cons m rest =>
    have h0 : IsMinOf (newMsgSet.add m).startNonce [m.Message.Nonce] := by
      rw [msgSet.startNonce_add_of_empty newMsgSet m msgSet.len_newMsgSet]
      exact ⟨List.mem_singleton.2 rfl, fun n hn => by rw [List.mem_singleton.1 hn]⟩
    have := foldl_add_isMin rest (newMsgSet.add m) [m.Message.Nonce]
      (msgSet.len_add_pos _ _) h0
    simpa using this

/-- C2. Watermark equals the minimum: after inserting a non-empty sequence of
messages into a fresh set with `msgSet.add`, `startNonce` is the minimum of the
inserted nonces, and every permutation of the sequence gives the same
`startNonce`. -/
theorem watermark_eq_min (l : List SignedMessage) (hl : l ≠ []) :
    (l.map (fun m => m.Message.Nonce)).min? = some (l.foldl msgSet.add newMsgSet).startNonce ∧
    ∀ l2 : List SignedMessage, l2.Perm l →
      (l2.foldl msgSet.add newMsgSet).startNonce = (l.foldl msgSet.add newMsgSet).startNonce := by
  have h1 := foldl_add_newMsgSet_isMin l hl
  refine ⟨List.min?_eq_some_iff'.2 h1, ?_⟩
  intro l2 hp
  have hl2 : l2 ≠ [] := by
    intro h
    rw [h] at hp
    exact hl (List.nil_perm.1 hp)
  have h2 := foldl_add_newMsgSet_isMin l2 hl2
  have hmem : ∀ n, n ∈ l2.map (fun m => m.Message.Nonce) ↔ n ∈ l.map (fun m => m.Message.Nonce) :=
    fun n => (hp.map _).mem_iff
  apply Nat.le_antisymm
  · exact h2.2 _ ((hmem _).2 h1.1)
  · exact h1.2 _ ((hmem _).1 h2.1)

/-- Witness for `watermark_eq_min`: nonces 5, 3, 7 give watermark 3, in this
order and in the order 3, 7, 5. -/
theorem watermark_eq_min_witness :
    ([demoMsg 1 5 [], demoMsg 1 3 [], demoMsg 1 7 []].foldl msgSet.add newMsgSet).startNonce = 3 ∧
    ([demoMsg 1 3 [], demoMsg 1 7 [], demoMsg 1 5 []].foldl msgSet.add newMsgSet).startNonce =
      ([demoMsg 1 5 [], demoMsg 1 3 [], demoMsg 1 7 []].foldl msgSet.add newMsgSet).startNonce :=
  ⟨Option.some.inj
      ((watermark_eq_min [demoMsg 1 5 [], demoMsg 1 3 [], demoMsg 1 7 []]
        (by decide)).1.symm.trans (by decide)),
    (watermark_eq_min [demoMsg 1 5 [], demoMsg 1 3 [], demoMsg 1 7 []] (by decide)).2
      [demoMsg 1 3 [], demoMsg 1 7 [], demoMsg 1 5 []] (by decide)⟩

/-! ## The nonce walk of `Pending` -/

theorem pendingWalk_of_run (msgs : MsgMap) :
    ∀ (n fuel i : Nat), i + n < uint64Size → (∀ j, i ≤ j → j < i + n → j ∈ msgs) →
      msgs.lookup (i + n) = none → n < fuel →
      pendingWalk msgs fuel i = some ((List.range' i n).filterMap (fun j => msgs.lookup j)) := by
  intro n
  induction n with
  | zero =>
    intro fuel i _ _ hnone hfuel
    obtain ⟨f, rfl⟩ : ∃ f, fuel = f + 1 := ⟨fuel - 1, by omega⟩
    simp only [Nat.add_zero] at hnone
    simp [pendingWalk, hnone]
  | succ n ih =>
    intro fuel i hlt hmem hnone hfuel
    obtain ⟨f, rfl⟩ : ∃ f, fuel = f + 1 := ⟨fuel - 1, by omega⟩
    obtain ⟨m, hm⟩ := Finmap.mem_iff.1 (hmem i (Nat.le_refl i) (by omega))
    have hwrap : (i + 1) % uint64Size = i + 1 := Nat.mod_eq_of_lt (by omega)
    have hrec := ih f (i + 1) (by omega) (fun j h1 h2 => hmem j (by omega) (by omega))
      (by rw [show i + 1 + n = i + (n + 1) by omega]; exact hnone) (by omega)
    rw [pendingWalk, hm]
    simp only []
    have hcons : (List.range' i (n + 1)).filterMap (fun j => msgs.lookup j) =
        m :: (List.range' (i + 1) n).filterMap (fun j => msgs.lookup j) := by
      rw [List.range'_succ]
      exact List.filterMap_cons_some hm
    rw [hwrap, hrec, hcons]
    rfl

theorem pendingWalk_firstGap (ms : msgSet) (g fuel : Nat) (hg : IsFirstGap ms g)
    (hfuel : g - ms.startNonce < fuel) :
    pendingWalk ms.msgs fuel ms.startNonce = some (storedRun ms g) := by
  obtain ⟨hle, hlt, hnone, hmem⟩ := hg
  have hsum : ms.startNonce + (g - ms.startNonce) = g := by omega
  exact pendingWalk_of_run ms.msgs (g - ms.startNonce) fuel ms.startNonce
    (by rw [hsum]; exact hlt) (fun j h1 h2 => hmem j h1 (by omega))
    (by rw [hsum]; exact hnone) hfuel

theorem mem_storedRun {ms : msgSet} {g : Nat} {m : SignedMessage} (h : m ∈ storedRun ms g) :
    ∃ n, ms.startNonce ≤ n ∧ n < g ∧ ms.msgs.lookup n = some m := by
  obtain ⟨n, hn, hm⟩ := List.mem_filterMap.1 h
  obtain ⟨h1, h2⟩ := List.mem_range'_1.1 hn
  exact ⟨n, h1, by omega, hm⟩

/-! ## Slot consistency of reachable pools -/

theorem SlotConsistent_Add (E : ChainDeps σ) (mp : MessagePool σ) (m : SignedMessage)
    (h : SlotConsistent mp.pending) : SlotConsistent (mp.Add E m).2.pending := by
  rcases Add_cases E mp m with ⟨_, hp⟩ | ⟨_, hp⟩
  · rw [hp]; exact h
  · rw [hp]
    intro a s n x hs hx
    by_cases ha : a = m.Message.From
    · subst ha
      rw [Finmap.lookup_insert] at hs
      cases hs
      by_cases hn : n = m.Message.Nonce
      · subst hn
        rw [msgSet.lookup_add_self] at hx
        cases hx
        exact ⟨rfl, rfl⟩
      · rw [msgSet.lookup_add_ne _ _ hn] at hx
        unfold senderSet at hx
        cases hl : mp.pending.lookup m.Message.From with
        | none =>
          rw [hl] at hx
          simp [newMsgSet, Finmap.lookup_empty] at hx
        | some s0 =>
          rw [hl] at hx
          exact h _ s0 n x hl hx
    · rw [Finmap.lookup_insert_of_ne _ ha] at hs
      exact h a s n x hs hx

theorem SlotConsistent_Remove (mp : MessagePool σ) (m : SignedMessage)
    (h : SlotConsistent mp.pending) : SlotConsistent (mp.Remove m).pending := by
  rcases Remove_cases mp m with ⟨_, hp⟩ | ⟨s, _, _, hp⟩ | ⟨s, hl, _, hp⟩
  · rw [hp]; exact h
  · rw [hp]
    intro a t n x ht hx
    by_cases ha : a = m.Message.From
    · subst ha
      simp [Finmap.lookup_erase] at ht
    · simp only [] at ht
      rw [Finmap.lookup_erase_ne ha] at ht
      exact h a t n x ht hx
  · rw [hp]
    intro a t n x ht hx
    by_cases ha : a = m.Message.From
    · subst ha
      simp only [] at ht
      rw [Finmap.lookup_insert] at ht
      cases ht
      simp only [] at hx
      by_cases hn : n = m.Message.Nonce
      · subst hn
        rw [Finmap.lookup_erase] at hx
        cases hx
      · rw [Finmap.lookup_erase_ne hn] at hx
        exact h _ s n x hl hx
    · simp only [] at ht
      rw [Finmap.lookup_insert_of_ne _ ha] at ht
      exact h a t n x ht hx

theorem Reachable.slotConsistent (E : ChainDeps σ) (cs0 : σ) (mp : MessagePool σ)
    (hr : Reachable E cs0 mp) : SlotConsistent mp.pending :=
  Reachable.invariant E cs0 (fun mp => SlotConsistent mp.pending)
    (by intro a s n m hs; simp [NewMessagePool, Finmap.lookup_empty] at hs)
    (fun mp m h => SlotConsistent_Add E mp m h)
    (fun mp m h => SlotConsistent_Remove mp m h) mp hr

theorem Reachable.addMsgs (E : ChainDeps σ) (cs0 : σ) (msgs : List SignedMessage)
    (mp : MessagePool σ) (hr : Reachable E cs0 mp) : Reachable E cs0 (addMsgs E mp msgs).2 :=
  addMsgs_preserves E (Reachable E cs0) (fun _ m h => Reachable.add m h) msgs mp hr

theorem demoPool_lookup : demoPool.pending.lookup 1 = some (demoSet 1 5 [5, 6, 7, 9]) := by rfl

theorem demoPool_keys : demoPool.pending.keys = {1} := by decide

theorem demoPool_order : IsRangeOrder demoPool.pending [1] := by
  refine ⟨by decide, fun a => ?_⟩
  rw [← Finmap.mem_keys, demoPool_keys]
  simp

theorem demoPool_gap (a : Address) (s : msgSet) (hs : demoPool.pending.lookup a = some s) :
    a = 1 ∧ s = demoSet 1 5 [5, 6, 7, 9] := by
  have ha : a ∈ demoPool.pending.keys := Finmap.mem_keys.2 (Finmap.mem_of_lookup_eq_some hs)
  rw [demoPool_keys] at ha
  have h1 : a = 1 := by simpa using ha
  subst h1
  rw [demoPool_lookup] at hs
  exact ⟨rfl, (Option.some.inj hs).symm⟩

theorem demoSet_firstGap : IsFirstGap (demoSet 1 5 [5, 6, 7, 9]) 8 := by
  refine ⟨by decide, by norm_num [uint64Size], by decide, ?_⟩
  intro j h1 h2
  have h1 : 5 ≤ j := h1
  interval_cases j <;> decide

/-! ## Sequences of `Add` -/

theorem Add_ok_pending (E : ChainDeps σ) (mp : MessagePool σ) (m : SignedMessage)
    (h : (mp.Add E m).1 = none) :
    (mp.Add E m).2.pending =
      mp.pending.insert m.Message.From ((senderSet mp.pending m.Message.From).add m) := by
  rcases Add_cases E mp m with ⟨⟨e, he⟩, _⟩ | ⟨_, hp⟩
  · rw [h] at he
    cases he
  · exact hp

theorem addMsgs_append (E : ChainDeps σ) (l1 l2 : List SignedMessage) :
    ∀ mp : MessagePool σ, addMsgs E mp (l1 ++ l2) =
      match addMsgs E mp l1 with
      | (some e, mp1) => (some e, mp1)
      | (none, mp1) => addMsgs E mp1 l2 := by
  induction l1 with
  | nil => intro mp; rfl
  | cons m rest ih =>
    intro mp
    simp only [List.cons_append, addMsgs]
    rcases hA : mp.Add E m with ⟨_ | e, mp1⟩
    · exact ih mp1
    · rfl

theorem addMsgs_ok (E : ChainDeps σ) (l : List SignedMessage)
    (hok : ∀ (p : MessagePool σ) m, m ∈ l → (p.Add E m).1 = none) :
    ∀ mp : MessagePool σ, (addMsgs E mp l).1 = none := by
  induction l with
  | nil => intro mp; rfl
  | cons m rest ih =>
    intro mp
    have h1 := hok mp m (List.mem_cons_self _ _)
    simp only [addMsgs]
    rcases hA : mp.Add E m with ⟨_ | e, mp1⟩
    · exact ih (fun p x hx => hok p x (List.mem_cons_of_mem _ hx)) mp1
    · rw [hA] at h1
      cases h1

theorem SlotHolds_Add_self (E : ChainDeps σ) (mp : MessagePool σ) (M : SignedMessage)
    (h : (mp.Add E M).1 = none) : SlotHolds (mp.Add E M).2.pending M := by
  rw [Add_ok_pending E mp M h]
  exact ⟨_, Finmap.lookup_insert _, msgSet.lookup_add_self _ _⟩

theorem SlotHolds_Add_other (E : ChainDeps σ) (mp : MessagePool σ) (x M : SignedMessage)
    (hx : ¬ SameSlot x M) (hM : SlotHolds mp.pending M) :
    SlotHolds (mp.Add E x).2.pending M := by
  rcases Add_cases E mp x with ⟨_, hp⟩ | ⟨_, hp⟩
  · rw [hp]; exact hM
  · rw [hp]
    obtain ⟨s, hs, hn⟩ := hM
    by_cases hfrom : M.Message.From = x.Message.From
    · have hnonce : M.Message.Nonce ≠ x.Message.Nonce := fun h => hx ⟨hfrom.symm, h.symm⟩
      refine ⟨(senderSet mp.pending x.Message.From).add x, ?_, ?_⟩
      · rw [hfrom]; exact Finmap.lookup_insert _
      · rw [msgSet.lookup_add_ne _ _ hnonce]
        unfold senderSet
        rw [← hfrom, hs]
        exact hn
    · exact ⟨s, by rw [Finmap.lookup_insert_of_ne _ hfrom]; exact hs, hn⟩

theorem SlotHolds_Add_keep (E : ChainDeps σ) (mp : MessagePool σ) (x M : SignedMessage)
    (hx : SameSlot x M → x = M) (hM : SlotHolds mp.pending M) :
    SlotHolds (mp.Add E x).2.pending M := by
  by_cases hs : SameSlot x M
  · rw [hx hs]
    rcases Add_cases E mp M with ⟨_, hp⟩ | ⟨hnone, _⟩
    · rw [hp]; exact hM
    · exact SlotHolds_Add_self E mp M hnone
  · exact SlotHolds_Add_other E mp x M hs hM

theorem SlotHolds_addMsgs (E : ChainDeps σ) (M : SignedMessage) (l : List SignedMessage)
    (hl : ∀ x ∈ l, SameSlot x M → x = M) :
    ∀ mp : MessagePool σ, SlotHolds mp.pending M → SlotHolds (addMsgs E mp l).2.pending M := by
  induction l with
  | nil => intro mp h; exact h
  | cons x rest ih =>
    intro mp h
    have h1 := SlotHolds_Add_keep E mp x M (hl x (List.mem_cons_self _ _)) h
    simp only [addMsgs]
    rcases hA : mp.Add E x with ⟨_ | e, mp1⟩
    · rw [hA] at h1
      exact ih (fun y hy => hl y (List.mem_cons_of_mem _ hy)) mp1 h1
    · rw [hA] at h1
      exact h1

/-- After a run of `Add` calls that all succeed, the slot of `M` holds `M` when
`M` is in the run and every later message of the run naming that slot is `M`. -/
theorem SlotHolds_addMsgs_last (E : ChainDeps σ) (M : SignedMessage)
    (l1 l2 : List SignedMessage)
    (hok : ∀ (p : MessagePool σ) m, m ∈ l1 ++ M :: l2 → (p.Add E m).1 = none)
    (hlast : ∀ x ∈ l2, SameSlot x M → x = M) (mp : MessagePool σ) :
    (addMsgs E mp (l1 ++ M :: l2)).1 = none ∧
      SlotHolds (addMsgs E mp (l1 ++ M :: l2)).2.pending M := by
  refine ⟨addMsgs_ok E _ hok mp, ?_⟩
  rw [addMsgs_append]
  have h1 := addMsgs_ok E l1 (fun p m hm => hok p m (List.mem_append_left _ hm)) mp
  rcases hA : addMsgs E mp l1 with ⟨_ | e, mp1⟩
  · simp only [addMsgs]
    have h2 := hok mp1 M (List.mem_append_right _ (List.mem_cons_self _ _))
    have h3 := SlotHolds_Add_self E mp1 M h2
    rcases hB : mp1.Add E M with ⟨_ | e, mp2⟩
    · rw [hB] at h3
      exact SlotHolds_addMsgs E M l2 hlast mp2 h3
    · rw [hB] at h2
      cases h2
  · rw [hA] at h1
    cases h1

theorem removeMsgs_cs (l : List SignedMessage) :
    ∀ mp : MessagePool σ, (removeMsgs mp l).cs = mp.cs := by
  induction l with
  | nil => intro mp; rfl
  | cons m rest ih =>
    intro mp
    rw [removeMsgs, ih]
    rcases Remove_cases mp m with ⟨_, hp⟩ | ⟨s, _, _, hp⟩ | ⟨s, _, _, hp⟩ <;> rw [hp]

theorem HeadChange_apply_one (E : ChainDeps σ) (mp : MessagePool σ) (B : BlockHeader)
    (msgs : List SignedMessage) (hres : E.MessagesForBlock mp.cs B = .ok msgs) :
    mp.HeadChange E [] [{ blks := [B] }] = (none, removeMsgs mp msgs) := by
  simp [MessagePool.HeadChange, revertTipSets, applyTipSets, applyBlocks, TipSet.Blocks, hres]

theorem HeadChange_revert_one (E : ChainDeps σ) (mp : MessagePool σ) (B : BlockHeader)
    (msgs : List SignedMessage) (hres : E.MessagesForBlock mp.cs B = .ok msgs)
    (hok : (addMsgs E mp msgs).1 = none) :
    mp.HeadChange E [{ blks := [B] }] [] = (none, (addMsgs E mp msgs).2) := by
  rcases hA : addMsgs E mp msgs with ⟨_ | e, mp1⟩
  · simp [MessagePool.HeadChange, revertTipSets, revertBlocks, applyTipSets, TipSet.Blocks, hres,
      hA]
  · rw [hA] at hok
    cases hok

/-! ## `HeadChange` as two folds -/

theorem addMsgs_eq_foldl (E : ChainDeps σ) (l : List SignedMessage) :
    ∀ mp : MessagePool σ, (addMsgs E mp l).1 = none →
      (addMsgs E mp l).2 = l.foldl (fun p m => (p.Add E m).2) mp := by
  induction l with
  | nil => intro mp _; rfl
  | cons m rest ih =>
    intro mp h
    simp only [addMsgs, List.foldl_cons] at h ⊢
    rcases hA : mp.Add E m with ⟨_ | e, mp1⟩
    · rw [hA] at h
      exact ih mp1 h
    · rw [hA] at h
      cases h

theorem removeMsgs_eq_foldl (l : List SignedMessage) :
    ∀ mp : MessagePool σ, removeMsgs mp l = l.foldl MessagePool.Remove mp := by
  induction l with
  | nil => intro mp; rfl
  | cons m rest ih => intro mp; exact ih _

theorem removeMsgs_append (l1 l2 : List SignedMessage) (mp : MessagePool σ) :
    removeMsgs mp (l1 ++ l2) = removeMsgs (removeMsgs mp l1) l2 := by
  rw [removeMsgs_eq_foldl, removeMsgs_eq_foldl, removeMsgs_eq_foldl, List.foldl_append]

theorem revertBlocks_eq_addMsgs (E : ChainDeps σ) (msgsOf : BlockHeader → List SignedMessage)
    (bs : List BlockHeader)
    (hres : ∀ cs, ∀ b ∈ bs, E.MessagesForBlock cs b = .ok (msgsOf b)) :
    ∀ mp : MessagePool σ, revertBlocks E mp bs = addMsgs E mp (bs.flatMap msgsOf) := by
  induction bs with
  | nil => intro mp; rfl
  | cons b rest ih =>
    intro mp
    rw [revertBlocks, hres mp.cs b (List.mem_cons_self _ _), List.flatMap_cons, addMsgs_append]
    simp only []
    rcases hA : addMsgs E mp (msgsOf b) with ⟨_ | e, mp1⟩
    · exact ih (fun cs x hx => hres cs x (List.mem_cons_of_mem _ hx)) mp1
    · rfl

theorem revertTipSets_eq_addMsgs (E : ChainDeps σ) (msgsOf : BlockHeader → List SignedMessage)
    (tss : List TipSet)
    (hres : ∀ cs, ∀ ts ∈ tss, ∀ b ∈ ts.Blocks, E.MessagesForBlock cs b = .ok (msgsOf b)) :
    ∀ mp : MessagePool σ, revertTipSets E mp tss = addMsgs E mp (blockMsgs msgsOf tss) := by
  induction tss with
  | nil => intro mp; rfl
  | cons ts rest ih =>
    intro mp
    have h1 := revertBlocks_eq_addMsgs E msgsOf ts.Blocks
      (fun cs b hb => hres cs ts (List.mem_cons_self _ _) b hb) mp
    simp only [blockMsgs, List.flatMap_cons, List.flatMap_append] at *
    rw [revertTipSets, h1, addMsgs_append]
    rcases hA : addMsgs E mp (ts.Blocks.flatMap msgsOf) with ⟨_ | e, mp1⟩
    · exact ih (fun cs t ht => hres cs t (List.mem_cons_of_mem _ ht)) mp1
    · rfl

theorem applyBlocks_eq_removeMsgs (E : ChainDeps σ) (msgsOf : BlockHeader → List SignedMessage)
    (bs : List BlockHeader)
    (hres : ∀ cs, ∀ b ∈ bs, E.MessagesForBlock cs b = .ok (msgsOf b)) :
    ∀ mp : MessagePool σ, applyBlocks E mp bs = (none, removeMsgs mp (bs.flatMap msgsOf)) := by
  induction bs with
  | nil => intro mp; rfl
  | cons b rest ih =>
    intro mp
    rw [applyBlocks, hres mp.cs b (List.mem_cons_self _ _), List.flatMap_cons, removeMsgs_append]
    exact ih (fun cs x hx => hres cs x (List.mem_cons_of_mem _ hx)) _

theorem applyTipSets_eq_removeMsgs (E : ChainDeps σ) (msgsOf : BlockHeader → List SignedMessage)
    (tss : List TipSet)
    (hres : ∀ cs, ∀ ts ∈ tss, ∀ b ∈ ts.Blocks, E.MessagesForBlock cs b = .ok (msgsOf b)) :
    ∀ mp : MessagePool σ,
      applyTipSets E mp tss = (none, removeMsgs mp (blockMsgs msgsOf tss)) := by
  induction tss with
  | nil => intro mp; rfl
  | cons ts rest ih =>
    intro mp
    have h1 := applyBlocks_eq_removeMsgs E msgsOf ts.Blocks
      (fun cs b hb => hres cs ts (List.mem_cons_self _ _) b hb) mp
    simp only [blockMsgs, List.flatMap_cons, List.flatMap_append] at *
    rw [applyTipSets, h1, removeMsgs_append]
    exact ih (fun cs t ht => hres cs t (List.mem_cons_of_mem _ ht)) _

/-! ## Emptied slots -/

theorem SlotEmpty_Remove_self (mp : MessagePool σ) (m : SignedMessage) :
    SlotEmpty (mp.Remove m).pending m.Message.From m.Message.Nonce := by
  rcases Remove_cases mp m with ⟨hl, hp⟩ | ⟨s, _, _, hp⟩ | ⟨s, _, _, hp⟩
  · rw [hp]
    intro s hs
    rw [hl] at hs
    cases hs
  · rw [hp]
    intro t ht
    simp [Finmap.lookup_erase] at ht
  · rw [hp]
    intro t ht
    simp only [] at ht
    rw [Finmap.lookup_insert] at ht
    cases ht
    exact Finmap.lookup_erase _ _

theorem SlotEmpty_Remove_other (mp : MessagePool σ) (x : SignedMessage) (a : Address) (n : Nat)
    (h : SlotEmpty mp.pending a n) : SlotEmpty (mp.Remove x).pending a n := by
  rcases Remove_cases mp x with ⟨_, hp⟩ | ⟨s, _, _, hp⟩ | ⟨s, hl, _, hp⟩
  · rw [hp]; exact h
  · rw [hp]
    intro t ht
    by_cases ha : a = x.Message.From
    · subst ha
      simp [Finmap.lookup_erase] at ht
    · simp only [] at ht
      rw [Finmap.lookup_erase_ne ha] at ht
      exact h t ht
  · rw [hp]
    intro t ht
    by_cases ha : a = x.Message.From
    · subst ha
      simp only [] at ht
      rw [Finmap.lookup_insert] at ht
      cases ht
      by_cases hn : n = x.Message.Nonce
      · subst hn
        exact Finmap.lookup_erase _ _
      · simp only []
        rw [Finmap.lookup_erase_ne hn]
        exact h s hl
    · simp only [] at ht
      rw [Finmap.lookup_insert_of_ne _ ha] at ht
      exact h t ht

theorem SlotEmpty_removeMsgs_keep (l : List SignedMessage) (a : Address) (n : Nat) :
    ∀ mp : MessagePool σ, SlotEmpty mp.pending a n → SlotEmpty (removeMsgs mp l).pending a n := by
  induction l with
  | nil => intro mp h; exact h
  | cons x rest ih => intro mp h; exact ih _ (SlotEmpty_Remove_other mp x a n h)

theorem SlotEmpty_removeMsgs (l : List SignedMessage) (m : SignedMessage) (hm : m ∈ l) :
    ∀ mp : MessagePool σ,
      SlotEmpty (removeMsgs mp l).pending m.Message.From m.Message.Nonce := by
  induction l with
  | nil => cases hm
  | cons x rest ih =>
    intro mp
    rcases List.mem_cons.1 hm with rfl | hrest
    · exact SlotEmpty_removeMsgs_keep rest _ _ _ (SlotEmpty_Remove_self mp m)
    · exact ih hrest _

/-- C5. `HeadChange` handles the reverted tipsets first and the applied ones
afterwards, each in the order given: when every block of the two lists
resolves to its messages `msgsOf b` and `HeadChange` returns no error, the pool
afterwards is the one obtained by folding `Add` over the concatenated messages
of the reverted blocks and then folding `Remove` over the concatenated messages
of the applied blocks; and no message of an applied block has an entry left in
its (sender, nonce) slot, also when a reverted block contains it too. -/
theorem HeadChange_revert_then_apply (E : ChainDeps σ) (mp : MessagePool σ)
    (revert apply : List TipSet) (msgsOf : BlockHeader → List SignedMessage)
    (hres : ∀ cs, ∀ ts ∈ revert ++ apply, ∀ b ∈ ts.Blocks,
      E.MessagesForBlock cs b = .ok (msgsOf b))
    (hok : (mp.HeadChange E revert apply).1 = none) :
    (mp.HeadChange E revert apply).2 =
      (blockMsgs msgsOf apply).foldl MessagePool.Remove
        ((blockMsgs msgsOf revert).foldl (fun p m => (p.Add E m).2) mp) ∧
    ∀ m ∈ blockMsgs msgsOf apply, ∀ s,
      (mp.HeadChange E revert apply).2.pending.lookup m.Message.From = some s →
        s.msgs.lookup m.Message.Nonce = none := by
  have hrev := revertTipSets_eq_addMsgs E msgsOf revert
    (fun cs ts ht => hres cs ts (List.mem_append_left _ ht)) mp
  have happ := applyTipSets_eq_removeMsgs E msgsOf apply
    (fun cs ts ht => hres cs ts (List.mem_append_right _ ht))
  have hfold := addMsgs_eq_foldl E (blockMsgs msgsOf revert) mp
  unfold MessagePool.HeadChange at hok ⊢
  rw [hrev] at hok ⊢
  rcases hA : addMsgs E mp (blockMsgs msgsOf revert) with ⟨_ | e, mp1⟩
  · rw [hA] at hfold
    have hfold2 : mp1 = (blockMsgs msgsOf revert).foldl (fun p m => (p.Add E m).2) mp :=
      hfold rfl
    simp only []
    rw [happ mp1, ← hfold2, ← removeMsgs_eq_foldl]
    exact ⟨rfl, fun m hm => SlotEmpty_removeMsgs _ m hm mp1⟩
  · rw [hA] at hok
    cases hok

/-- Witness for `HeadChange_revert_then_apply`: block 1 of the example chain
both reverted and applied, on the new pool. -/
theorem HeadChange_revert_then_apply_witness :
    ((NewMessagePool demoChain []).HeadChange demoChain
        [{ blks := [{ Cid := 1 }] }] [{ blks := [{ Cid := 1 }] }]).2 =
      (blockMsgs demoMsgsOf [{ blks := [{ Cid := 1 }] }]).foldl MessagePool.Remove
        ((blockMsgs demoMsgsOf [{ blks := [{ Cid := 1 }] }]).foldl
          (fun p m => (p.Add demoChain m).2) (NewMessagePool demoChain [])) ∧
    ∀ m ∈ blockMsgs demoMsgsOf [{ blks := [{ Cid := 1 }] }], ∀ s,
      ((NewMessagePool demoChain []).HeadChange demoChain
        [{ blks := [{ Cid := 1 }] }] [{ blks := [{ Cid := 1 }] }]).2.pending.lookup
          m.Message.From = some s →
        s.msgs.lookup m.Message.Nonce = none :=
  HeadChange_revert_then_apply demoChain (NewMessagePool demoChain [])
    [{ blks := [{ Cid := 1 }] }] [{ blks := [{ Cid := 1 }] }] demoMsgsOf
    (fun cs ts ht b hb => by
      simp only [List.cons_append, List.nil_append, List.mem_cons, List.mem_singleton,
        List.not_mem_nil, or_false, or_self] at ht
      subst ht
      simp only [TipSet.Blocks, List.mem_singleton] at hb
      subst hb
      rfl)
    (by decide)

/-! ## `HeadChange` stops at the first error -/

theorem revertBlocks_append (E : ChainDeps σ) (l1 l2 : List BlockHeader) :
    ∀ mp : MessagePool σ, revertBlocks E mp (l1 ++ l2) =
      match revertBlocks E mp l1 with
      | (some e, mp1) => (some e, mp1)
      | (none, mp1) => revertBlocks E mp1 l2 := by
  induction l1 with
  | nil => intro mp; rfl
  | cons b rest ih =>
    intro mp
    simp only [List.cons_append, revertBlocks]
    cases hm : E.MessagesForBlock mp.cs b with
    | error e => rfl
    | ok msgs =>
      simp only []
      rcases hA : addMsgs E mp msgs with ⟨_ | e, mp1⟩
      · exact ih mp1
      · rfl

theorem revertTipSets_append (E : ChainDeps σ) (l1 l2 : List TipSet) :
    ∀ mp : MessagePool σ, revertTipSets E mp (l1 ++ l2) =
      match revertTipSets E mp l1 with
      | (some e, mp1) => (some e, mp1)
      | (none, mp1) => revertTipSets E mp1 l2 := by
  induction l1 with
  | nil => intro mp; rfl
  | cons ts rest ih =>
    intro mp
    simp only [List.cons_append, revertTipSets]
    rcases hA : revertBlocks E mp ts.Blocks with ⟨_ | e, mp1⟩
    · exact ih mp1
    · rfl

theorem applyBlocks_append (E : ChainDeps σ) (l1 l2 : List BlockHeader) :
    ∀ mp : MessagePool σ, applyBlocks E mp (l1 ++ l2) =
      match applyBlocks E mp l1 with
      | (some e, mp1) => (some e, mp1)
      | (none, mp1) => applyBlocks E mp1 l2 := by
  induction l1 with
  | nil => intro mp; rfl
  | cons b rest ih =>
    intro mp
    simp only [List.cons_append, applyBlocks]
    cases hm : E.MessagesForBlock mp.cs b with
    | error e => rfl
    | ok msgs => exact ih _

theorem applyTipSets_append (E : ChainDeps σ) (l1 l2 : List TipSet) :
    ∀ mp : MessagePool σ, applyTipSets E mp (l1 ++ l2) =
      match applyTipSets E mp l1 with
      | (some e, mp1) => (some e, mp1)
      | (none, mp1) => applyTipSets E mp1 l2 := by
  induction l1 with
  | nil => intro mp; rfl
  | cons ts rest ih =>
    intro mp
    simp only [List.cons_append, applyTipSets]
    rcases hA : applyBlocks E mp ts.Blocks with ⟨_ | e, mp1⟩
    · exact ih mp1
    · rfl

/-- The revert loop run up to the blocks `bpre` of the tipset after `pre`. -/
theorem revertTipSets_upto (E : ChainDeps σ) (mp mp1 : MessagePool σ) (pre : List TipSet)
    (bpre : List BlockHeader)
    (h : revertTipSets E mp (pre ++ [{ blks := bpre }]) = (none, mp1)) :
    ∃ mp0, revertTipSets E mp pre = (none, mp0) ∧ revertBlocks E mp0 bpre = (none, mp1) := by
  rw [revertTipSets_append] at h
  rcases hA : revertTipSets E mp pre with ⟨_ | e, mp0⟩
  · rw [hA] at h
    simp only [revertTipSets, TipSet.Blocks] at h
    rcases hB : revertBlocks E mp0 bpre with ⟨_ | e, mp2⟩
    · rw [hB] at h
      simp only [Prod.mk.injEq, true_and] at h
      exact ⟨mp0, rfl, by rw [hB, h]⟩
    · rw [hB] at h
      simp at h
  · rw [hA] at h
    simp at h

/-- The apply loop run up to the blocks `bpre` of the tipset after `pre`. -/
theorem applyTipSets_upto (E : ChainDeps σ) (mp mp1 : MessagePool σ) (pre : List TipSet)
    (bpre : List BlockHeader)
    (h : applyTipSets E mp (pre ++ [{ blks := bpre }]) = (none, mp1)) :
    ∃ mp0, applyTipSets E mp pre = (none, mp0) ∧ applyBlocks E mp0 bpre = (none, mp1) := by
  rw [applyTipSets_append] at h
  rcases hA : applyTipSets E mp pre with ⟨_ | e, mp0⟩
  · rw [hA] at h
    simp only [applyTipSets, TipSet.Blocks] at h
    rcases hB : applyBlocks E mp0 bpre with ⟨_ | e, mp2⟩
    · rw [hB] at h
      simp only [Prod.mk.injEq, true_and] at h
      exact ⟨mp0, rfl, by rw [hB, h]⟩
    · rw [hB] at h
      simp at h
  · rw [hA] at h
    simp at h

theorem HeadChange_fail_resolve_revert (E : ChainDeps σ) (mp mp1 : MessagePool σ)
    (pre post : List TipSet) (ts : TipSet) (bpre bpost : List BlockHeader) (b : BlockHeader)
    (apply : List TipSet) (e : Error)
    (hts : ts.Blocks = bpre ++ b :: bpost)
    (hrun : revertTipSets E mp (pre ++ [{ blks := bpre }]) = (none, mp1))
    (hfail : E.MessagesForBlock mp1.cs b = .error e) :
    mp.HeadChange E (pre ++ ts :: post) apply = (some e, mp1) := by
  obtain ⟨mp0, h0, h1⟩ := revertTipSets_upto E mp mp1 pre bpre hrun
  unfold MessagePool.HeadChange
  rw [revertTipSets_append, h0]
  simp only [revertTipSets]
  rw [hts, revertBlocks_append, h1]
  simp only [revertBlocks]
  rw [hfail]

theorem HeadChange_fail_add (E : ChainDeps σ) (mp mp1 mp2 : MessagePool σ)
    (pre post : List TipSet) (ts : TipSet) (bpre bpost : List BlockHeader) (b : BlockHeader)
    (mpre mpost : List SignedMessage) (m : SignedMessage)
    (apply : List TipSet) (e : Error)
    (hts : ts.Blocks = bpre ++ b :: bpost)
    (hrun : revertTipSets E mp (pre ++ [{ blks := bpre }]) = (none, mp1))
    (hres : E.MessagesForBlock mp1.cs b = .ok (mpre ++ m :: mpost))
    (hadds : addMsgs E mp1 mpre = (none, mp2))
    (hfail : (mp2.Add E m).1 = some e) :
    mp.HeadChange E (pre ++ ts :: post) apply = (some e, (mp2.Add E m).2) := by
  obtain ⟨mp0, h0, h1⟩ := revertTipSets_upto E mp mp1 pre bpre hrun
  unfold MessagePool.HeadChange
  rw [revertTipSets_append, h0]
  simp only [revertTipSets]
  rw [hts, revertBlocks_append, h1]
  simp only [revertBlocks]
  rw [hres]
  simp only []
  rw [addMsgs_append, hadds]
  simp only [addMsgs]
  rcases hA : mp2.Add E m with ⟨_ | e2, mp3⟩
  · rw [hA] at hfail
    cases hfail
  · rw [hA] at hfail
    cases hfail
    rfl

theorem HeadChange_fail_resolve_apply (E : ChainDeps σ) (mp mp1 mp2 : MessagePool σ)
    (revert pre post : List TipSet) (ts : TipSet) (bpre bpost : List BlockHeader)
    (b : BlockHeader) (e : Error)
    (hts : ts.Blocks = bpre ++ b :: bpost)
    (hrev : revertTipSets E mp revert = (none, mp1))
    (hrun : applyTipSets E mp1 (pre ++ [{ blks := bpre }]) = (none, mp2))
    (hfail : E.MessagesForBlock mp2.cs b = .error e) :
    mp.HeadChange E revert (pre ++ ts :: post) = (some e, mp2) := by
  obtain ⟨mp0, h0, h1⟩ := applyTipSets_upto E mp1 mp2 pre bpre hrun
  unfold MessagePool.HeadChange
  rw [hrev]
  simp only []
  rw [applyTipSets_append, h0]
  simp only [applyTipSets]
  rw [hts, applyBlocks_append, h1]
  simp only [applyBlocks]
  rw [hfail]

/-- C6. `HeadChange` is fail-fast and not atomic. (1) If, after the reverted
tipsets `pre` and the blocks `bpre` of the next one were processed without
error, giving pool `mp1`, the next block does not resolve, `HeadChange` returns
that error with the pool `mp1`. (2) If the block resolves and, after the
messages `mpre` were re-admitted giving `mp2`, `Add` of the next message fails,
`HeadChange` returns that error with the pool left by the failing `Add`, whose
pending map is that of `mp2`. (3) If the revert half succeeded and a block of
the apply list does not resolve after `pre` and `bpre` were processed giving
`mp2`, `HeadChange` returns that error with the pool `mp2`. In each case the
result does not depend on the remaining blocks, tipsets or the apply list. -/
theorem HeadChange_fail_fast (E : ChainDeps σ) (mp : MessagePool σ) :
    (∀ (pre post : List TipSet) (ts : TipSet) (bpre bpost : List BlockHeader) (b : BlockHeader)
        (apply : List TipSet) (mp1 : MessagePool σ) (e : Error),
      ts.Blocks = bpre ++ b :: bpost →
      revertTipSets E mp (pre ++ [{ blks := bpre }]) = (none, mp1) →
      E.MessagesForBlock mp1.cs b = .error e →
      mp.HeadChange E (pre ++ ts :: post) apply = (some e, mp1)) ∧
    (∀ (pre post : List TipSet) (ts : TipSet) (bpre bpost : List BlockHeader) (b : BlockHeader)
        (mpre mpost : List SignedMessage) (m : SignedMessage)
        (apply : List TipSet) (mp1 mp2 : MessagePool σ) (e : Error),
      ts.Blocks = bpre ++ b :: bpost →
      revertTipSets E mp (pre ++ [{ blks := bpre }]) = (none, mp1) →
      E.MessagesForBlock mp1.cs b = .ok (mpre ++ m :: mpost) →
      addMsgs E mp1 mpre = (none, mp2) →
      (mp2.Add E m).1 = some e →
      mp.HeadChange E (pre ++ ts :: post) apply = (some e, (mp2.Add E m).2) ∧
        (mp2.Add E m).2.pending = mp2.pending) ∧
    (∀ (revert pre post : List TipSet) (ts : TipSet) (bpre bpost : List BlockHeader)
        (b : BlockHeader) (mp1 mp2 : MessagePool σ) (e : Error),
      ts.Blocks = bpre ++ b :: bpost →
      revertTipSets E mp revert = (none, mp1) →
      applyTipSets E mp1 (pre ++ [{ blks := bpre }]) = (none, mp2) →
      E.MessagesForBlock mp2.cs b = .error e →
      mp.HeadChange E revert (pre ++ ts :: post) = (some e, mp2)) := by
  refine ⟨?_, ?_, ?_⟩
  · intro pre post ts bpre bpost b apply mp1 e hts hrun hfail
    exact HeadChange_fail_resolve_revert E mp mp1 pre post ts bpre bpost b apply e hts hrun hfail
  · intro pre post ts bpre bpost b mpre mpost m apply mp1 mp2 e hts hrun hres hadds hfail
    refine ⟨HeadChange_fail_add E mp mp1 mp2 pre post ts bpre bpost b mpre mpost m apply e
      hts hrun hres hadds hfail, ?_⟩
    rcases Add_cases E mp2 m with ⟨_, hp⟩ | ⟨hnone, _⟩
    · exact hp
    · rw [hnone] at hfail
      cases hfail
  · intro revert pre post ts bpre bpost b mp1 mp2 e hts hrev hrun hfail
    exact HeadChange_fail_resolve_apply E mp mp1 mp2 revert pre post ts bpre bpost b e
      hts hrev hrun hfail

/-- Witness for `HeadChange_fail_fast` on the example chain: block 2 does not
resolve (reverted after block 1, or applied after block 1), and the second
message of block 3 fails its signature check after the first was re-admitted. -/
theorem HeadChange_fail_fast_witness :
    (NewMessagePool demoChain []).HeadChange demoChain
        [{ blks := [{ Cid := 1 }, { Cid := 2 }, { Cid := 0 }] }] [{ blks := [{ Cid := 1 }] }] =
      (some Error.chainRead,
        (addMsgs demoChain (NewMessagePool demoChain []) [demoMsg 1 5 []]).2) ∧
    ((NewMessagePool demoChain []).HeadChange demoChain
        [{ blks := [{ Cid := 3 }] }, { blks := [{ Cid := 1 }] }] [{ blks := [{ Cid := 1 }] }] =
      (some Error.signature,
        ((addMsgs demoChain (NewMessagePool demoChain []) [demoMsg 1 6 []]).2.Add demoChain
          demoBadMsg).2) ∧
      ((addMsgs demoChain (NewMessagePool demoChain []) [demoMsg 1 6 []]).2.Add demoChain
          demoBadMsg).2.pending =
        (addMsgs demoChain (NewMessagePool demoChain []) [demoMsg 1 6 []]).2.pending) ∧
    (NewMessagePool demoChain []).HeadChange demoChain
        [{ blks := [{ Cid := 1 }] }] [{ blks := [{ Cid := 1 }, { Cid := 2 }, { Cid := 0 }] }] =
      (some Error.chainRead,
        removeMsgs (addMsgs demoChain (NewMessagePool demoChain []) [demoMsg 1 5 []]).2
          [demoMsg 1 5 []]) :=
  ⟨(HeadChange_fail_fast demoChain (NewMessagePool demoChain [])).1
      [] [] { blks := [{ Cid := 1 }, { Cid := 2 }, { Cid := 0 }] } [{ Cid := 1 }] [{ Cid := 0 }]
      { Cid := 2 } [{ blks := [{ Cid := 1 }] }] _ Error.chainRead rfl rfl rfl,
    (HeadChange_fail_fast demoChain (NewMessagePool demoChain [])).2.1
      [] [{ blks := [{ Cid := 1 }] }] { blks := [{ Cid := 3 }] } [] [] { Cid := 3 }
      [demoMsg 1 6 []] [demoMsg 1 7 []] demoBadMsg [{ blks := [{ Cid := 1 }] }]
      (NewMessagePool demoChain []) _ Error.signature rfl rfl rfl rfl rfl,
    (HeadChange_fail_fast demoChain (NewMessagePool demoChain [])).2.2
      [{ blks := [{ Cid := 1 }] }] [] [] { blks := [{ Cid := 1 }, { Cid := 2 }, { Cid := 0 }] }
      [{ Cid := 1 }] [{ Cid := 0 }] { Cid := 2 }
      (addMsgs demoChain (NewMessagePool demoChain []) [demoMsg 1 5 []]).2 _
      Error.chainRead rfl rfl rfl rfl⟩

/-! ## `Add` -/

/-- C7. `Add` is atomic on failure: when serialization fails or the signature
does not verify, `Add` returns that error and the whole pool, block store
included, is unchanged; when the block-store write fails, `Add` returns that
error and the pending map is unchanged; in general an error from `Add` leaves
the pending map unchanged. When `Add` returns no error, the message is stored
at its nonce in the set of its sender. -/
theorem Add_atomic_on_failure (E : ChainDeps σ) (mp : MessagePool σ) (m : SignedMessage) :
    (∀ e, E.Serialize m.Message = .error e → mp.Add E m = (some e, mp)) ∧
    (∀ data e, E.Serialize m.Message = .ok data →
      E.Verify m.Signature m.Message.From data = some e → mp.Add E m = (some e, mp)) ∧
    (∀ data msb e cs1, E.Serialize m.Message = .ok data →
      E.Verify m.Signature m.Message.From data = none → E.ToStorageBlock m = .ok msb →
      E.Put mp.cs msb = (some e, cs1) →
      (mp.Add E m).1 = some e ∧ (mp.Add E m).2.pending = mp.pending) ∧
    (∀ e, (mp.Add E m).1 = some e → (mp.Add E m).2.pending = mp.pending) ∧
    ((mp.Add E m).1 = none →
      ∃ s, (mp.Add E m).2.pending.lookup m.Message.From = some s ∧
        s.msgs.lookup m.Message.Nonce = some m) := by
  refine ⟨?_, ?_, ?_, ?_, ?_⟩
  · intro e h
    simp [MessagePool.Add, h]
  · intro data e h1 h2
    simp [MessagePool.Add, h1, h2]
  · intro data msb e cs1 h1 h2 h3 h4
    simp [MessagePool.Add, h1, h2, h3, h4]
  · intro e he
    rcases Add_cases E mp m with ⟨_, hp⟩ | ⟨hnone, _⟩
    · exact hp
    · rw [hnone] at he
      cases he
  · intro h
    exact SlotHolds_Add_self E mp m h

/-- Witness for `Add_atomic_on_failure`: a message that does not serialize, one
whose signature does not verify, a full block store, and a successful `Add`. -/
theorem Add_atomic_on_failure_witness :
    demoPool.Add demoEnv demoUnserializable = (some Error.serialization, demoPool) ∧
    demoPool.Add demoEnv demoBadMsg = (some Error.signature, demoPool) ∧
    ((demoPool.Add demoFull (demoMsg 1 8 [])).1 = some Error.storage ∧
      (demoPool.Add demoFull (demoMsg 1 8 [])).2.pending = demoPool.pending) ∧
    ∃ s, (demoPool.Add demoEnv (demoMsg 1 8 [])).2.pending.lookup 1 = some s ∧
      s.msgs.lookup 8 = some (demoMsg 1 8 []) :=
  ⟨(Add_atomic_on_failure demoEnv demoPool demoUnserializable).1 Error.serialization rfl,
    (Add_atomic_on_failure demoEnv demoPool demoBadMsg).2.1 [0] Error.signature rfl rfl,
    (Add_atomic_on_failure demoFull demoPool (demoMsg 1 8 [])).2.2.1 [8]
      { RawData := [1, 8] } Error.storage demoPool.cs rfl rfl rfl rfl,
    (Add_atomic_on_failure demoEnv demoPool (demoMsg 1 8 [])).2.2.2.2 rfl⟩

/-! ## `Remove` -/

/-- C8. Removal is nonce-addressed and never fails: `Remove` is a total
function without error result; after `Remove` of any message `m2` with the
sender and nonce of `m`, the pool holds no entry for that sender at that
nonce, whatever was stored there; and when the sender has no message set, or
(in a pool whose sets are all non-empty) no entry at that nonce, `Remove`
leaves the whole pool unchanged. -/
theorem Remove_nonce_addressed (mp : MessagePool σ) (m : SignedMessage) :
    (∀ m2 : SignedMessage, SameSlot m2 m →
      ∀ s, (mp.Remove m2).pending.lookup m.Message.From = some s →
        s.msgs.lookup m.Message.Nonce = none) ∧
    (mp.pending.lookup m.Message.From = none → mp.Remove m = mp) ∧
    (NonEmptySets mp.pending →
      (∀ s, mp.pending.lookup m.Message.From = some s → s.msgs.lookup m.Message.Nonce = none) →
      mp.Remove m = mp) := by
  refine ⟨?_, ?_, ?_⟩
  · intro m2 hslot
    have h := SlotEmpty_Remove_self mp m2
    rw [hslot.1, hslot.2] at h
    exact h
  · intro h
    rcases Remove_cases mp m with ⟨_, hp⟩ | ⟨s, hl, _, _⟩ | ⟨s, hl, _, _⟩
    · exact hp
    · rw [h] at hl; cases hl
    · rw [h] at hl; cases hl
  · intro hne hnone
    rcases Remove_cases mp m with ⟨_, hp⟩ | ⟨s, hl, hc, hp⟩ | ⟨s, hl, hc, hp⟩
    · exact hp
    · have herase : s.msgs.erase m.Message.Nonce = s.msgs :=
        erase_of_not_mem _ _ (Finmap.lookup_eq_none.1 (hnone s hl))
      have hpos := hne _ s hl
      rw [herase] at hc
      unfold msgSet.len at hpos
      omega
    · have herase : s.msgs.erase m.Message.Nonce = s.msgs :=
        erase_of_not_mem _ _ (Finmap.lookup_eq_none.1 (hnone s hl))
      rw [hp, herase]
      have hs : ({ msgs := s.msgs, startNonce := s.startNonce } : msgSet) = s := rfl
      rw [hs, insert_of_lookup _ _ _ hl]

/-- Witness for `Remove_nonce_addressed` on the example pool (sender 1 with
nonces 5, 6, 7, 9): removing a different message at nonce 5 empties that slot,
removing for the unknown sender 2 or at the free nonce 8 changes nothing. -/
theorem Remove_nonce_addressed_witness :
    (∀ s, (demoPool.Remove (demoMsg 1 5 [7])).pending.lookup 1 = some s →
      s.msgs.lookup 5 = none) ∧
    demoPool.Remove (demoMsg 2 5 []) = demoPool ∧
    demoPool.Remove (demoMsg 1 8 []) = demoPool :=
  ⟨(Remove_nonce_addressed demoPool (demoMsg 1 5 [])).1 (demoMsg 1 5 [7]) ⟨rfl, rfl⟩,
    (Remove_nonce_addressed demoPool (demoMsg 2 5 [])).2.1 (by rfl),
    (Remove_nonce_addressed demoPool (demoMsg 1 8 [])).2.2
      (Reachable.nonEmptySets demoEnv [] demoPool (Reachable.addMsgs _ _ _ _ Reachable.init))
      (fun s hs => by
        rw [(demoPool_gap 1 s hs).2]
        decide)⟩

/-! ## Replacement by nonce -/

theorem msgSet.len_add_of_mem (ms : msgSet) (m : SignedMessage)
    (h : m.Message.Nonce ∈ ms.msgs) : (ms.add m).len = ms.len := by
  unfold msgSet.len msgSet.add
  simp only []
  rw [keys_insert_eq, Finset.insert_eq_of_mem (Finmap.mem_keys.2 h)]

/-- C10. Nonce replacement: for two messages with the same nonce, after
`add m1` then `add m2` the entry at that nonce is `m2`, the set has as many
messages as after `add m1` alone and the same entries at all other nonces;
and after two successful `Add` calls for the same sender and nonce the
sender's set stores the later message at that nonce, with as many messages as
after the first call. -/
theorem nonce_replacement (ms : msgSet) (m1 m2 : SignedMessage)
    (hn : m1.Message.Nonce = m2.Message.Nonce) :
    (((ms.add m1).add m2).msgs.lookup m2.Message.Nonce = some m2 ∧
      ((ms.add m1).add m2).len = (ms.add m1).len ∧
      ∀ n, n ≠ m2.Message.Nonce →
        ((ms.add m1).add m2).msgs.lookup n = (ms.add m1).msgs.lookup n) ∧
    ∀ (E : ChainDeps σ) (mp : MessagePool σ), m1.Message.From = m2.Message.From →
      (mp.Add E m1).1 = none → ((mp.Add E m1).2.Add E m2).1 = none →
      ∃ s1 s2, (mp.Add E m1).2.pending.lookup m2.Message.From = some s1 ∧
        ((mp.Add E m1).2.Add E m2).2.pending.lookup m2.Message.From = some s2 ∧
        s2.msgs.lookup m2.Message.Nonce = some m2 ∧ s2.len = s1.len ∧
        ∀ n, n ≠ m2.Message.Nonce → s2.msgs.lookup n = s1.msgs.lookup n := by
  have hmem : ∀ s : msgSet, m2.Message.Nonce ∈ (s.add m1).msgs := fun s =>
    Finmap.mem_of_lookup_eq_some (hn ▸ msgSet.lookup_add_self s m1)
  refine ⟨⟨msgSet.lookup_add_self _ _, msgSet.len_add_of_mem _ _ (hmem ms),
    fun n h => msgSet.lookup_add_ne _ _ h⟩, ?_⟩
  intro E mp hfrom h1 h2
  have hp1 := Add_ok_pending E mp m1 h1
  have hp2 := Add_ok_pending E (mp.Add E m1).2 m2 h2
  have hl1 : (mp.Add E m1).2.pending.lookup m2.Message.From =
      some ((senderSet mp.pending m1.Message.From).add m1) := by
    rw [hp1, ← hfrom]
    exact Finmap.lookup_insert _
  have hss : senderSet (mp.Add E m1).2.pending m2.Message.From =
      (senderSet mp.pending m1.Message.From).add m1 := by
    unfold senderSet
    rw [hl1]
    rfl
  refine ⟨_, _, hl1, by rw [hp2]; exact Finmap.lookup_insert _, ?_, ?_, ?_⟩
  · exact msgSet.lookup_add_self _ _
  · rw [hss]
    exact msgSet.len_add_of_mem _ _ (hmem _)
  · intro n h
    rw [hss]
    exact msgSet.lookup_add_ne _ _ h

/-- Witness for `nonce_replacement`: two example messages of sender 1 with
nonce 5, inserted into the set holding nonces 5, 6, 7 and 9 and added to the
example pool. -/
theorem nonce_replacement_witness :
    ((((demoSet 1 5 [5, 6, 7, 9]).add (demoMsg 1 5 [1])).add (demoMsg 1 5 [2])).msgs.lookup 5 =
        some (demoMsg 1 5 [2]) ∧
      (((demoSet 1 5 [5, 6, 7, 9]).add (demoMsg 1 5 [1])).add (demoMsg 1 5 [2])).len =
        ((demoSet 1 5 [5, 6, 7, 9]).add (demoMsg 1 5 [1])).len ∧
      ∀ n, n ≠ 5 →
        (((demoSet 1 5 [5, 6, 7, 9]).add (demoMsg 1 5 [1])).add (demoMsg 1 5 [2])).msgs.lookup n =
          ((demoSet 1 5 [5, 6, 7, 9]).add (demoMsg 1 5 [1])).msgs.lookup n) ∧
    ∃ s1 s2, (demoPool.Add demoEnv (demoMsg 1 5 [1])).2.pending.lookup 1 = some s1 ∧
      ((demoPool.Add demoEnv (demoMsg 1 5 [1])).2.Add demoEnv
        (demoMsg 1 5 [2])).2.pending.lookup 1 = some s2 ∧
      s2.msgs.lookup 5 = some (demoMsg 1 5 [2]) ∧ s2.len = s1.len ∧
      ∀ n, n ≠ 5 → s2.msgs.lookup n = s1.msgs.lookup n :=
  ⟨(@nonce_replacement DemoStore (demoSet 1 5 [5, 6, 7, 9]) (demoMsg 1 5 [1])
      (demoMsg 1 5 [2]) rfl).1,
    (@nonce_replacement DemoStore (demoSet 1 5 [5, 6, 7, 9]) (demoMsg 1 5 [1])
      (demoMsg 1 5 [2]) rfl).2 demoEnv demoPool rfl rfl rfl⟩

/-! ## A second `Add` of the same message -/

theorem Add_eq_of_ok (E : ChainDeps σ) (mp : MessagePool σ) (m : SignedMessage)
    (data : List Nat) (msb : StorageBlock) (cs1 : σ)
    (h1 : E.Serialize m.Message = .ok data)
    (h2 : E.Verify m.Signature m.Message.From data = none)
    (h3 : E.ToStorageBlock m = .ok msb) (h4 : E.Put mp.cs msb = (none, cs1)) :
    mp.Add E m = (none,
      { pending := mp.pending.insert m.Message.From ((senderSet mp.pending m.Message.From).add m)
        cs := cs1 }) := by
  simp only [MessagePool.Add, h1, h2, h3, h4, senderSet]

/-- What a successful `Add` did: the three checks passed, the block was
written, and the message was inserted into the set of its sender. -/
theorem Add_ok_inv (E : ChainDeps σ) (mp : MessagePool σ) (m : SignedMessage)
    (h : (mp.Add E m).1 = none) :
    ∃ data msb cs1, E.Serialize m.Message = .ok data ∧
      E.Verify m.Signature m.Message.From data = none ∧ E.ToStorageBlock m = .ok msb ∧
      E.Put mp.cs msb = (none, cs1) ∧
      mp.Add E m = (none,
        { pending :=
            mp.pending.insert m.Message.From ((senderSet mp.pending m.Message.From).add m)
          cs := cs1 }) := by
  cases h1 : E.Serialize m.Message with
  | error e =>
    have hA : mp.Add E m = (some e, mp) := by simp only [MessagePool.Add, h1]
    rw [hA] at h
    cases h
  | ok data =>
    cases h2 : E.Verify m.Signature m.Message.From data with
    | some e =>
      have hA : mp.Add E m = (some e, mp) := by simp only [MessagePool.Add, h1, h2]
      rw [hA] at h
      cases h
    | none =>
      cases h3 : E.ToStorageBlock m with
      | error e =>
        have hA : mp.Add E m = (some e, mp) := by simp only [MessagePool.Add, h1, h2, h3]
        rw [hA] at h
        cases h
      | ok msb =>
        rcases h4 : E.Put mp.cs msb with ⟨_ | e, cs1⟩
        · exact ⟨data, msb, cs1, rfl, h2, rfl, h4, Add_eq_of_ok E mp m data msb cs1 h1 h2 h3 h4⟩
        · have hA : (mp.Add E m).1 = some e := by simp only [MessagePool.Add, h1, h2, h3, h4]
          rw [hA] at h
          cases h

theorem msgSet.add_add_self (ms : msgSet) (m : SignedMessage) :
    (ms.add m).add m = ms.add m := by
  have hmsgs : ((ms.add m).add m).msgs = (ms.add m).msgs :=
    insert_of_lookup _ _ _ (msgSet.lookup_add_self ms m)
  have hstart : ((ms.add m).add m).startNonce = (ms.add m).startNonce := by
    rw [msgSet.startNonce_add_of_pos _ _ (msgSet.len_add_pos ms m)]
    apply Nat.min_eq_right
    unfold msgSet.add
    simp only []
    split
    · exact Nat.le_refl _
    · rename_i hc
      exact Nat.le_of_not_lt (fun hlt => hc (Or.inr hlt))
  cases hx : (ms.add m).add m with
  | mk msgs2 start2 =>
    cases hy : ms.add m with
    | mk msgs1 start1 =>
      rw [hx, hy] at hmsgs hstart
      simp only [] at hmsgs hstart
      rw [hmsgs, hstart]

/-- C11. `Add` is idempotent: when `Add m` succeeds and the block store accepts
the write of the same block again, a second `Add m` succeeds too, leaves the
pending map as it was after the first call, and the sender's set stores `m` at
its nonce with as many messages as after the first call; when the duplicate
write leaves the store unchanged, the whole pool is unchanged. -/
theorem Add_idempotent (E : ChainDeps σ) (mp : MessagePool σ) (m : SignedMessage)
    (hok : (mp.Add E m).1 = none)
    (hdup : ∀ msb, E.ToStorageBlock m = .ok msb → (E.Put (mp.Add E m).2.cs msb).1 = none) :
    ((mp.Add E m).2.Add E m).1 = none ∧
    ((mp.Add E m).2.Add E m).2.pending = (mp.Add E m).2.pending ∧
    (∃ s, ((mp.Add E m).2.Add E m).2.pending.lookup m.Message.From = some s ∧
      (mp.Add E m).2.pending.lookup m.Message.From = some s ∧
      s.msgs.lookup m.Message.Nonce = some m) ∧
    ((∀ msb, E.ToStorageBlock m = .ok msb →
        (E.Put (mp.Add E m).2.cs msb).2 = (mp.Add E m).2.cs) →
      ((mp.Add E m).2.Add E m).2 = (mp.Add E m).2) := by
  obtain ⟨data, msb, cs1, h1, h2, h3, h4, h5⟩ := Add_ok_inv E mp m hok
  have hput := hdup msb h3
  have hl1 : (mp.Add E m).2.pending.lookup m.Message.From =
      some ((senderSet mp.pending m.Message.From).add m) := by
    rw [h5]
    exact Finmap.lookup_insert _
  have hsecond : (mp.Add E m).2.Add E m =
      (none, { pending := (mp.Add E m).2.pending, cs := (E.Put (mp.Add E m).2.cs msb).2 }) := by
    rcases hP : E.Put (mp.Add E m).2.cs msb with ⟨_ | e, cs2⟩
    · rw [Add_eq_of_ok E (mp.Add E m).2 m data msb cs2 h1 h2 h3 hP]
      have hss : senderSet (mp.Add E m).2.pending m.Message.From =
          (senderSet mp.pending m.Message.From).add m := by
        unfold senderSet
        rw [hl1]
        rfl
      rw [hss, msgSet.add_add_self, insert_of_lookup _ _ _ hl1]
    · rw [hP] at hput
      cases hput
  rw [hsecond]
  refine ⟨rfl, rfl, ⟨_, hl1, hl1, msgSet.lookup_add_self _ _⟩, ?_⟩
  intro hsame
  rw [hsame msb h3]

/-- Witness for `Add_idempotent`: on the example pool, whose block store
accepts every write, adding the message of sender 1 with nonce 8 twice. -/
theorem Add_idempotent_witness :
    ((demoPool.Add demoEnv (demoMsg 1 8 [])).2.Add demoEnv (demoMsg 1 8 [])).1 = none ∧
    ((demoPool.Add demoEnv (demoMsg 1 8 [])).2.Add demoEnv (demoMsg 1 8 [])).2.pending =
      (demoPool.Add demoEnv (demoMsg 1 8 [])).2.pending :=
  ⟨(Add_idempotent demoEnv demoPool (demoMsg 1 8 []) rfl (fun _ _ => rfl)).1,
    (Add_idempotent demoEnv demoPool (demoMsg 1 8 []) rfl (fun _ _ => rfl)).2.1⟩

/-! ## `GetNonce` -/

/-- C12. Next nonce from pending state: for an address that has a message set,
`GetNonce` returns, without error, `startNonce` plus the number of messages of
the set modulo `2 ^ 64`, whatever the chain store and its functions are. -/
theorem GetNonce_pending (mp : MessagePool σ) (addr : Address) (s : msgSet)
    (hs : mp.pending.lookup addr = some s) :
    ∀ (E : ChainDeps σ) (cs : σ),
      MessagePool.GetNonce E { pending := mp.pending, cs := cs } addr =
        .ok ((s.startNonce + s.len) % uint64Size) := by
  intro E cs
  simp only [MessagePool.GetNonce, hs]

/-- Witness for `GetNonce_pending`: the example pool (watermark 5, four
messages) answers 9 for sender 1. -/
theorem GetNonce_pending_witness : demoPool.GetNonce demoEnv 1 = .ok 9 :=
  (GetNonce_pending demoPool 1 (demoSet 1 5 [5, 6, 7, 9]) demoPool_lookup demoEnv
    demoPool.cs).trans (by rfl)

/-! ## The watermark -/

theorem msgSet.startNonce_add_le (ms : msgSet) (m : SignedMessage) :
    (ms.add m).startNonce ≤ m.Message.Nonce := by
  unfold msgSet.add
  simp only []
  split
  · exact Nat.le_refl _
  · rename_i hc
    exact Nat.le_of_not_lt (fun hlt => hc (Or.inr hlt))

theorem msgSet.mem_add (ms : msgSet) (m : SignedMessage) (n : Nat) :
    n ∈ (ms.add m).msgs ↔ n = m.Message.Nonce ∨ n ∈ ms.msgs :=
  Finmap.mem_insert

theorem msgSet.add_lowerBound (ms : msgSet) (m : SignedMessage)
    (h : ∀ n, n ∈ ms.msgs → ms.startNonce ≤ n) :
    ∀ n, n ∈ (ms.add m).msgs → (ms.add m).startNonce ≤ n := by
  intro n hn
  rcases (msgSet.mem_add ms m n).1 hn with rfl | hmem
  · exact msgSet.startNonce_add_le ms m
  · have hpos : 0 < ms.len := Finset.card_pos.2 ⟨n, Finmap.mem_keys.2 hmem⟩
    rw [msgSet.startNonce_add_of_pos ms m hpos]
    exact Nat.le_trans (Nat.min_le_right _ _) (h n hmem)

theorem WatermarkLowerBound_Add (E : ChainDeps σ) (mp : MessagePool σ) (m : SignedMessage)
    (h : WatermarkLowerBound mp.pending) : WatermarkLowerBound (mp.Add E m).2.pending := by
  rcases Add_cases E mp m with ⟨_, hp⟩ | ⟨_, hp⟩
  · rw [hp]; exact h
  · rw [hp]
    intro a s hs
    by_cases ha : a = m.Message.From
    · subst ha
      rw [Finmap.lookup_insert] at hs
      cases hs
      apply msgSet.add_lowerBound
      unfold senderSet
      cases hl : mp.pending.lookup m.Message.From with
      | none =>
        intro n hn
        exact absurd hn Finmap.not_mem_empty
      | some s0 => exact h _ s0 hl
    · rw [Finmap.lookup_insert_of_ne _ ha] at hs
      exact h a s hs

theorem WatermarkLowerBound_Remove (mp : MessagePool σ) (m : SignedMessage)
    (h : WatermarkLowerBound mp.pending) : WatermarkLowerBound (mp.Remove m).pending := by
  rcases Remove_cases mp m with ⟨_, hp⟩ | ⟨s, _, _, hp⟩ | ⟨s, hl, _, hp⟩
  · rw [hp]; exact h
  · rw [hp]
    intro a t ht
    by_cases ha : a = m.Message.From
    · subst ha
      simp [Finmap.lookup_erase] at ht
    · simp only [] at ht
      rw [Finmap.lookup_erase_ne ha] at ht
      exact h a t ht
  · rw [hp]
    intro a t ht
    by_cases ha : a = m.Message.From
    · subst ha
      simp only [] at ht
      rw [Finmap.lookup_insert] at ht
      cases ht
      intro n hn
      exact h _ s hl n (Finmap.mem_erase.1 hn).2
    · simp only [] at ht
      rw [Finmap.lookup_insert_of_ne _ ha] at ht
      exact h a t ht

theorem Reachable.watermarkLowerBound (E : ChainDeps σ) (cs0 : σ) (mp : MessagePool σ)
    (hr : Reachable E cs0 mp) : WatermarkLowerBound mp.pending :=
  Reachable.invariant E cs0 (fun mp => WatermarkLowerBound mp.pending)
    (by intro a s hs; simp [NewMessagePool, Finmap.lookup_empty] at hs)
    (fun mp m h => WatermarkLowerBound_Add E mp m h)
    (fun mp m h => WatermarkLowerBound_Remove mp m h) mp hr

/-- C18. The watermark is a lower bound: in every pool state reachable from
the new pool by `Add`, `Remove` and `HeadChange`, for every sender in the
pending map, `startNonce` is less than or equal to every nonce stored in that
sender's message set. -/
theorem watermark_lower_bound (E : ChainDeps σ) (cs0 : σ) (mp : MessagePool σ)
    (hr : Reachable E cs0 mp) (a : Address) (s : msgSet)
    (hs : mp.pending.lookup a = some s) (n : Nat) (m : SignedMessage)
    (hn : s.msgs.lookup n = some m) : s.startNonce ≤ n :=
  Reachable.watermarkLowerBound E cs0 mp hr a s hs n (Finmap.mem_of_lookup_eq_some hn)

/-- Witness for `watermark_lower_bound`: in the example pool the watermark 5
is at most the stored nonce 9. -/
theorem watermark_lower_bound_witness : (demoSet 1 5 [5, 6, 7, 9]).startNonce ≤ 9 :=
  watermark_lower_bound demoEnv [] demoPool (Reachable.addMsgs _ _ _ _ Reachable.init) 1
    (demoSet 1 5 [5, 6, 7, 9]) demoPool_lookup 9 (demoMsg 1 9 []) (by rfl)

theorem Add_startNonce (E : ChainDeps σ) (mp : MessagePool σ) (m : SignedMessage)
    (hne : NonEmptySets mp.pending) (S : Address) (s : msgSet)
    (hs : mp.pending.lookup S = some s) :
    ∃ s1, (mp.Add E m).2.pending.lookup S = some s1 ∧ s1.startNonce ≤ s.startNonce ∧
      (s1.startNonce < s.startNonce →
        m.Message.From = S ∧ m.Message.Nonce < s.startNonce ∧
          s1.startNonce = m.Message.Nonce) := by
  rcases Add_cases E mp m with ⟨_, hp⟩ | ⟨_, hp⟩
  · rw [hp]
    exact ⟨s, hs, Nat.le_refl _, fun h => absurd h (Nat.lt_irrefl _)⟩
  · rw [hp]
    by_cases ha : S = m.Message.From
    · subst ha
      have hss : senderSet mp.pending m.Message.From = s := by
        unfold senderSet
        rw [hs]
      rw [hss]
      refine ⟨s.add m, Finmap.lookup_insert _, ?_, ?_⟩
      · rw [msgSet.startNonce_add_of_pos s m (hne _ s hs)]
        exact Nat.min_le_right _ _
      · rw [msgSet.startNonce_add_of_pos s m (hne _ s hs)]
        intro hlt
        have hlt2 : m.Message.Nonce < s.startNonce := by
          rcases Nat.le_total m.Message.Nonce s.startNonce with hle | hle
          · rw [Nat.min_eq_left hle] at hlt; exact hlt
          · rw [Nat.min_eq_right hle] at hlt; exact absurd hlt (Nat.lt_irrefl _)
        exact ⟨rfl, hlt2, Nat.min_eq_left (Nat.le_of_lt hlt2)⟩
    · refine ⟨s, ?_, Nat.le_refl _, fun h => absurd h (Nat.lt_irrefl _)⟩
      rw [Finmap.lookup_insert_of_ne _ ha]
      exact hs

theorem Remove_startNonce (mp : MessagePool σ) (m : SignedMessage) (S : Address)
    (s s1 : msgSet) (hs : mp.pending.lookup S = some s)
    (hs1 : (mp.Remove m).pending.lookup S = some s1) : s1.startNonce = s.startNonce := by
  rcases Remove_cases mp m with ⟨_, hp⟩ | ⟨s0, _, _, hp⟩ | ⟨s0, hl, _, hp⟩
  · rw [hp, hs] at hs1
    cases hs1
    rfl
  · rw [hp] at hs1
    simp only [] at hs1
    by_cases ha : S = m.Message.From
    · subst ha
      rw [Finmap.lookup_erase] at hs1
      cases hs1
    · rw [Finmap.lookup_erase_ne ha, hs] at hs1
      cases hs1
      rfl
  · rw [hp] at hs1
    simp only [] at hs1
    by_cases ha : S = m.Message.From
    · subst ha
      rw [Finmap.lookup_insert] at hs1
      rw [hl] at hs
      cases hs
      cases hs1
      rfl
    · rw [Finmap.lookup_insert_of_ne _ ha, hs] at hs1
      cases hs1
      rfl

/-- C14. `startNonce` is non-increasing while a sender's set exists: in a pool
whose sets are all non-empty, if sender `S` has a set before an `Add`, a
`Remove` or a `HeadChange` (failing or not) and has one afterwards, the
`startNonce` afterwards is at most the one before; `Add` lowers it only when
the added message is of `S` with a nonce below the watermark, which becomes the
new watermark, and `Remove` never changes it. -/
theorem watermark_non_increasing (mp : MessagePool σ) (hne : NonEmptySets mp.pending)
    (S : Address) (s : msgSet) (hs : mp.pending.lookup S = some s) :
    (∀ (E : ChainDeps σ) (m : SignedMessage) (s1 : msgSet),
      (mp.Add E m).2.pending.lookup S = some s1 →
      s1.startNonce ≤ s.startNonce ∧
        (s1.startNonce < s.startNonce →
          m.Message.From = S ∧ m.Message.Nonce < s.startNonce ∧
            s1.startNonce = m.Message.Nonce)) ∧
    (∀ (m : SignedMessage) (s1 : msgSet),
      (mp.Remove m).pending.lookup S = some s1 → s1.startNonce = s.startNonce) ∧
    (∀ (E : ChainDeps σ) (revert apply : List TipSet) (s1 : msgSet),
      (mp.HeadChange E revert apply).2.pending.lookup S = some s1 →
      s1.startNonce ≤ s.startNonce) := by
  refine ⟨?_, ?_, ?_⟩
  · intro E m s1 h1
    obtain ⟨s2, h2, hle, hlt⟩ := Add_startNonce E mp m hne S s hs
    rw [h1] at h2
    cases h2
    exact ⟨hle, hlt⟩
  · intro m s1 h1
    exact Remove_startNonce mp m S s s1 hs h1
  · intro E revert apply s1 h1
    have hQ : ∀ p : MessagePool σ,
        (NonEmptySets p.pending ∧ ∃ t, p.pending.lookup S = some t ∧
          t.startNonce ≤ s.startNonce) →
        ∀ m, NonEmptySets (p.Add E m).2.pending ∧
          ∃ t, (p.Add E m).2.pending.lookup S = some t ∧ t.startNonce ≤ s.startNonce := by
      rintro p ⟨hp, t, ht, hle⟩ m
      obtain ⟨t1, ht1, hle1, _⟩ := Add_startNonce E p m hp S t ht
      exact ⟨NonEmptySets_Add E p m hp, t1, ht1, Nat.le_trans hle1 hle⟩
    have hP : ∀ p : MessagePool σ,
        (∀ t, p.pending.lookup S = some t → t.startNonce ≤ s.startNonce) →
        ∀ m t, (MessagePool.Remove p m).pending.lookup S = some t →
          t.startNonce ≤ s.startNonce := by
      intro p hp m t ht
      cases hl : p.pending.lookup S with
      | none =>
        rcases Remove_cases p m with ⟨_, hr⟩ | ⟨s0, _, _, hr⟩ | ⟨s0, hl0, _, hr⟩
        · rw [hr, hl] at ht
          cases ht
        · rw [hr] at ht
          simp only [] at ht
          by_cases ha : S = m.Message.From
          · subst ha
            rw [Finmap.lookup_erase] at ht
            cases ht
          · rw [Finmap.lookup_erase_ne ha, hl] at ht
            cases ht
        · by_cases ha : S = m.Message.From
          · subst ha
            rw [hl] at hl0
            cases hl0
          · rw [hr] at ht
            simp only [] at ht
            rw [Finmap.lookup_insert_of_ne _ ha, hl] at ht
            cases ht
      | some t0 =>
        rw [Remove_startNonce p m S t0 t hl ht]
        exact hp t0 hl
    have hrev := revertTipSets_preserves E
      (fun p => NonEmptySets p.pending ∧ ∃ t, p.pending.lookup S = some t ∧
        t.startNonce ≤ s.startNonce)
      (fun p m h => hQ p h m) revert mp ⟨hne, s, hs, Nat.le_refl _⟩
    unfold MessagePool.HeadChange at h1
    rcases hA : revertTipSets E mp revert with ⟨_ | e, mp1⟩
    · rw [hA] at h1 hrev
      obtain ⟨_, t, ht, hle⟩ := hrev
      have happ := applyTipSets_preserves E
        (fun p => ∀ t, p.pending.lookup S = some t → t.startNonce ≤ s.startNonce)
        (fun p m h => hP p h m) apply mp1
        (fun t2 ht2 => by rw [ht] at ht2; cases ht2; exact hle)
      exact happ s1 h1
    · rw [hA] at h1 hrev
      obtain ⟨_, t, ht, hle⟩ := hrev
      simp only [] at h1
      rw [ht] at h1
      cases h1
      exact hle

/-- Witness for `watermark_non_increasing` on the example pool (watermark 5):
adding nonce 3 lowers the watermark to at most 5, removing the message at the
watermark keeps it at 5. -/
theorem watermark_non_increasing_witness :
    (∀ s1, (demoPool.Add demoEnv (demoMsg 1 3 [])).2.pending.lookup 1 = some s1 →
      s1.startNonce ≤ 5) ∧
    ∀ s1, (demoPool.Remove (demoMsg 1 5 [])).pending.lookup 1 = some s1 → s1.startNonce = 5 :=
  ⟨fun s1 h => ((watermark_non_increasing demoPool
      (Reachable.nonEmptySets demoEnv [] demoPool (Reachable.addMsgs _ _ _ _ Reachable.init))
      1 (demoSet 1 5 [5, 6, 7, 9]) demoPool_lookup).1 demoEnv (demoMsg 1 3 []) s1 h).1,
    fun s1 h => (watermark_non_increasing demoPool
      (Reachable.nonEmptySets demoEnv [] demoPool (Reachable.addMsgs _ _ _ _ Reachable.init))
      1 (demoSet 1 5 [5, 6, 7, 9]) demoPool_lookup).2.1 (demoMsg 1 5 []) s1 h⟩

/-! ## Termination of the nonce walk -/

theorem add_mod_succ (i j : Nat) :
    ((i + 1) % uint64Size + j) % uint64Size = (i + (j + 1)) % uint64Size := by
  rw [Nat.mod_add_mod]
  congr 1
  omega

theorem pendingWalk_wrap (msgs : MsgMap) :
    ∀ (k i : Nat), i < uint64Size → (∀ j, j < k → (i + j) % uint64Size ∈ msgs) →
      msgs.lookup ((i + k) % uint64Size) = none →
      ∃ out, (∀ fuel, k < fuel → pendingWalk msgs fuel i = some out) ∧ out.length = k ∧
        ∀ m ∈ out, ∃ n, msgs.lookup n = some m := by
  intro k
  induction k with
  | zero =>
    intro i hi _ hnone
    rw [Nat.add_zero, Nat.mod_eq_of_lt hi] at hnone
    refine ⟨[], ?_, rfl, fun m hm => by cases hm⟩
    intro fuel hfuel
    obtain ⟨f, rfl⟩ : ∃ f, fuel = f + 1 := ⟨fuel - 1, by omega⟩
    simp [pendingWalk, hnone]
  | succ k ih =>
    intro i hi hmem hnone
    have h0 : i ∈ msgs := by
      have := hmem 0 (Nat.succ_pos k)
      rwa [Nat.add_zero, Nat.mod_eq_of_lt hi] at this
    obtain ⟨m, hm⟩ := Finmap.mem_iff.1 h0
    have hi1 : (i + 1) % uint64Size < uint64Size := Nat.mod_lt _ (by decide)
    obtain ⟨out, hout, hlen, hstored⟩ := ih ((i + 1) % uint64Size) hi1
      (fun j hj => by rw [add_mod_succ]; exact hmem (j + 1) (by omega))
      (by rw [add_mod_succ]; exact hnone)
    refine ⟨m :: out, ?_, by simp [hlen], ?_⟩
    · intro fuel hfuel
      obtain ⟨f, rfl⟩ : ∃ f, fuel = f + 1 := ⟨fuel - 1, by omega⟩
      rw [pendingWalk, hm]
      simp only []
      rw [hout f (by omega)]
      rfl
    · intro x hx
      rcases List.mem_cons.1 hx with rfl | hx
      · exact ⟨i, hm⟩
      · exact hstored x hx

theorem exists_missing_nonce (keys : Finset Nat) (i : Nat) (hc : keys.card < uint64Size) :
    ∃ k, k ≤ keys.card ∧ (i + k) % uint64Size ∉ keys := by
  by_contra hcon
  have hall : ∀ k, k ≤ keys.card → (i + k) % uint64Size ∈ keys := by
    intro k hk
    by_contra hnot
    exact hcon ⟨k, hk, hnot⟩
  have hle := Finset.card_le_card_of_injOn (fun k => (i + k) % uint64Size)
    (fun k hk => hall k (Nat.le_of_lt_succ (Finset.mem_range.1 hk)))
    (by
      intro k1 h1 k2 h2 heq
      have h1 : k1 < keys.card + 1 := Finset.mem_range.1 h1
      have h2 : k2 < keys.card + 1 := Finset.mem_range.1 h2
      simp only [uint64Size] at heq hc
      omega)
  rw [Finset.card_range] at hle
  omega

theorem pendingWalk_terminates (s : msgSet) (hstart : s.startNonce < uint64Size)
    (hlen : s.len < uint64Size) :
    (∀ fuel, s.len < fuel → pendingWalk s.msgs fuel s.startNonce = some (walkOut s)) ∧
      (walkOut s).length ≤ s.len ∧ ∀ m ∈ walkOut s, ∃ n, s.msgs.lookup n = some m := by
  have hex := exists_missing_nonce s.msgs.keys s.startNonce hlen
  have hk := Nat.find_spec hex
  have hmin : ∀ j, j < Nat.find hex → (s.startNonce + j) % uint64Size ∈ s.msgs := by
    intro j hj
    by_contra hnot
    exact Nat.find_min hex hj
      ⟨Nat.le_trans (Nat.le_of_lt hj) hk.1, fun h => hnot (Finmap.mem_keys.1 h)⟩
  obtain ⟨out, hout, hl, hstored⟩ := pendingWalk_wrap s.msgs (Nat.find hex) s.startNonce hstart
    hmin (Finmap.lookup_eq_none.2 (fun h => hk.2 (Finmap.mem_keys.2 h)))
  have hk1 : Nat.find hex ≤ s.len := hk.1
  have hw : walkOut s = out := by
    unfold walkOut
    rw [hout (s.len + 1) (by omega)]
    rfl
  rw [hw]
  exact ⟨fun fuel hfuel => hout fuel (by omega), by omega, hstored⟩

theorem pendingLoop_flatMap (pending : PendingMap) (fuel : Nat)
    (hwalk : ∀ a s, pending.lookup a = some s →
      pendingWalk s.msgs fuel s.startNonce = some (walkOut s)) :
    ∀ (l : List Address) (out0 : List SignedMessage),
      pendingLoop pending fuel l out0 = some (out0 ++ l.flatMap (senderOut pending)) := by
  intro l
  induction l with
  | nil => intro out0; simp [pendingLoop]
  | cons a rest ih =>
    intro out0
    cases ha : pending.lookup a with
    | none =>
      rw [pendingLoop, ha]
      simp only []
      rw [ih, List.flatMap_cons]
      simp [senderOut, ha]
    | some sa =>
      rw [pendingLoop, ha]
      simp only []
      rw [hwalk a sa ha]
      simp only []
      rw [ih, List.flatMap_cons]
      simp [senderOut, ha]

theorem mem_senderOut {pending : PendingMap} {a : Address} {m : SignedMessage}
    (hrep : ∀ a s, pending.lookup a = some s → s.startNonce < uint64Size ∧ s.len < uint64Size)
    (h : m ∈ senderOut pending a) :
    ∃ s n, pending.lookup a = some s ∧ s.msgs.lookup n = some m := by
  unfold senderOut at h
  cases ha : pending.lookup a with
  | none => rw [ha] at h; cases h
  | some s =>
    rw [ha] at h
    obtain ⟨n, hn⟩ := (pendingWalk_terminates s (hrep a s ha).1 (hrep a s ha).2).2.2 m h
    exact ⟨s, n, rfl, hn⟩

/-- C20. `Pending` terminates: in a pool whose watermarks are `uint64` values
and whose sets hold fewer than `2 ^ 64` messages, the nonce walk of every
sender stops within `len(msgs) + 1` inspected nonces, yielding at most
`len(msgs)` messages, all stored in the set; and `Pending`, given at least that
many steps per walk, returns the concatenation of these walks in the order the
senders are visited, every returned message being stored in the pool. -/
theorem Pending_terminates (mp : MessagePool σ) (order : List Address) (fuel : Nat)
    (hrep : ∀ a s, mp.pending.lookup a = some s →
      s.startNonce < uint64Size ∧ s.len < uint64Size)
    (hfuel : ∀ a s, mp.pending.lookup a = some s → s.len < fuel) :
    (∀ a s, mp.pending.lookup a = some s →
      pendingWalk s.msgs (s.len + 1) s.startNonce = some (senderOut mp.pending a) ∧
      (senderOut mp.pending a).length ≤ s.len ∧
      ∀ m ∈ senderOut mp.pending a, ∃ n, s.msgs.lookup n = some m) ∧
    mp.Pending order fuel = some (order.flatMap (senderOut mp.pending)) ∧
    ∀ m ∈ order.flatMap (senderOut mp.pending),
      ∃ a s n, mp.pending.lookup a = some s ∧ s.msgs.lookup n = some m := by
  refine ⟨?_, ?_, ?_⟩
  · intro a s hs
    obtain ⟨h1, h2, h3⟩ := pendingWalk_terminates s (hrep a s hs).1 (hrep a s hs).2
    have hso : senderOut mp.pending a = walkOut s := by
      unfold senderOut
      rw [hs]
    rw [hso]
    exact ⟨h1 (s.len + 1) (Nat.lt_succ_self _), h2, h3⟩
  · have := pendingLoop_flatMap mp.pending fuel
      (fun a s hs => (pendingWalk_terminates s (hrep a s hs).1 (hrep a s hs).2).1 fuel
        (hfuel a s hs)) order []
    simpa [MessagePool.Pending] using this
  · intro m hm
    obtain ⟨a, _, ha⟩ := List.mem_flatMap.1 hm
    obtain ⟨s, n, hs, hn⟩ := mem_senderOut hrep ha
    exact ⟨a, s, n, hs, hn⟩

/-- Witness for `Pending_terminates`: the example pool (four messages of
sender 1) with five steps per walk. -/
theorem Pending_terminates_witness :
    demoPool.Pending [1] 5 = some ([1].flatMap (senderOut demoPool.pending)) ∧
    (senderOut demoPool.pending 1).length ≤ (demoSet 1 5 [5, 6, 7, 9]).len :=
  ⟨(Pending_terminates demoPool [1] 5
      (fun a s hs => by
        rw [(demoPool_gap a s hs).2]
        exact ⟨by decide, by decide⟩)
      (fun a s hs => by
        rw [(demoPool_gap a s hs).2]
        decide)).2.1,
    ((Pending_terminates demoPool [1] 5
      (fun a s hs => by
        rw [(demoPool_gap a s hs).2]
        exact ⟨by decide, by decide⟩)
      (fun a s hs => by
        rw [(demoPool_gap a s hs).2]
        decide)).1 1 (demoSet 1 5 [5, 6, 7, 9]) demoPool_lookup).2.1⟩

/-! ## `Pending` after `Remove` -/

theorem len_erase_le (s : msgSet) (n : Nat) : (s.msgs.erase n).keys.card ≤ s.len := by
  rw [Finmap.keys_erase]
  exact Finset.card_erase_le

/-- Every set of the pool after `Remove` comes from a set of the same sender
before, with the same watermark and no more messages. -/
theorem Remove_set_le (mp : MessagePool σ) (m : SignedMessage) (a : Address) (t : msgSet)
    (ht : (mp.Remove m).pending.lookup a = some t) :
    ∃ s, mp.pending.lookup a = some s ∧ t.startNonce = s.startNonce ∧ t.len ≤ s.len := by
  rcases Remove_cases mp m with ⟨_, hp⟩ | ⟨s0, _, _, hp⟩ | ⟨s0, hl, _, hp⟩
  · rw [hp] at ht
    exact ⟨t, ht, rfl, Nat.le_refl _⟩
  · rw [hp] at ht
    simp only [] at ht
    by_cases ha : a = m.Message.From
    · subst ha
      rw [Finmap.lookup_erase] at ht
      cases ht
    · rw [Finmap.lookup_erase_ne ha] at ht
      exact ⟨t, ht, rfl, Nat.le_refl _⟩
  · rw [hp] at ht
    simp only [] at ht
    by_cases ha : a = m.Message.From
    · subst ha
      rw [Finmap.lookup_insert] at ht
      cases ht
      exact ⟨s0, hl, rfl, len_erase_le s0 _⟩
    · rw [Finmap.lookup_insert_of_ne _ ha] at ht
      exact ⟨t, ht, rfl, Nat.le_refl _⟩

/-- When the walk of sender `S` yields nothing, `Pending` returns no message of
`S`. -/
theorem Pending_without_sender (p : MessagePool σ) (hslot : SlotConsistent p.pending)
    (S : Address) (hS : senderOut p.pending S = []) (order : List Address) (fuel : Nat)
    (hrep : ∀ a s, p.pending.lookup a = some s →
      s.startNonce < uint64Size ∧ s.len < uint64Size)
    (hfuel : ∀ a s, p.pending.lookup a = some s → s.len < fuel) :
    ∃ out, p.Pending order fuel = some out ∧ ∀ x ∈ out, x.Message.From ≠ S := by
  have hrun := pendingLoop_flatMap p.pending fuel
    (fun a s hs => (pendingWalk_terminates s (hrep a s hs).1 (hrep a s hs).2).1 fuel
      (hfuel a s hs)) order []
  refine ⟨order.flatMap (senderOut p.pending), by simpa [MessagePool.Pending] using hrun, ?_⟩
  intro x hx hfrom
  obtain ⟨a, _, ha⟩ := List.mem_flatMap.1 hx
  obtain ⟨s, n, hs, hn⟩ := mem_senderOut hrep ha
  have haS : a = S := by rw [← (hslot a s n x hs hn).1, hfrom]
  rw [haS, hS] at ha
  cases ha

theorem Remove_bounds (mp : MessagePool σ) (m : SignedMessage) (fuel : Nat)
    (hrep : ∀ a s, mp.pending.lookup a = some s →
      s.startNonce < uint64Size ∧ s.len < uint64Size)
    (hfuel : ∀ a s, mp.pending.lookup a = some s → s.len < fuel) :
    (∀ a s, (mp.Remove m).pending.lookup a = some s →
      s.startNonce < uint64Size ∧ s.len < uint64Size) ∧
    ∀ a s, (mp.Remove m).pending.lookup a = some s → s.len < fuel := by
  constructor
  · intro a t ht
    obtain ⟨s, hs, h1, h2⟩ := Remove_set_le mp m a t ht
    have := hrep a s hs
    exact ⟨by rw [h1]; exact this.1, Nat.lt_of_le_of_lt h2 this.2⟩
  · intro a t ht
    obtain ⟨s, hs, _, h2⟩ := Remove_set_le mp m a t ht
    exact Nat.lt_of_le_of_lt h2 (hfuel a s hs)

/-- C13. Sender cleanup: when the sender of `m` has exactly one pending message
and it is at `m`'s nonce, then after `Remove m` the sender is absent from the
pending map, `GetNonce` for the sender is the chain-state path, and `Pending`
(in a pool whose messages sit in their own slots, given enough steps for the
walks) returns no message of that sender. -/
theorem sender_cleanup (mp : MessagePool σ) (m : SignedMessage) (s : msgSet)
    (hs : mp.pending.lookup m.Message.From = some s) (hone : s.len = 1)
    (hn : m.Message.Nonce ∈ s.msgs) :
    (mp.Remove m).pending.lookup m.Message.From = none ∧
    m.Message.From ∉ (mp.Remove m).pending ∧
    (∀ E : ChainDeps σ,
      (mp.Remove m).GetNonce E m.Message.From = chainNonce E mp.cs m.Message.From) ∧
    (SlotConsistent mp.pending → ∀ (order : List Address) (fuel : Nat),
      (∀ a t, mp.pending.lookup a = some t →
        t.startNonce < uint64Size ∧ t.len < uint64Size) →
      (∀ a t, mp.pending.lookup a = some t → t.len < fuel) →
      ∃ out, (mp.Remove m).Pending order fuel = some out ∧
        ∀ x ∈ out, x.Message.From ≠ m.Message.From) := by
  have hcard : (s.msgs.erase m.Message.Nonce).keys.card = 0 := by
    rw [Finmap.keys_erase, Finset.card_erase_of_mem (Finmap.mem_keys.2 hn)]
    unfold msgSet.len at hone
    omega
  have hrem : mp.Remove m = { pending := mp.pending.erase m.Message.From, cs := mp.cs } := by
    rcases Remove_cases mp m with ⟨hl, _⟩ | ⟨s0, _, _, hp⟩ | ⟨s0, hl, hc, _⟩
    · rw [hs] at hl
      cases hl
    · exact hp
    · rw [hs] at hl
      cases hl
      omega
  have hnone : (mp.Remove m).pending.lookup m.Message.From = none := by
    rw [hrem]
    exact Finmap.lookup_erase _ _
  refine ⟨hnone, Finmap.lookup_eq_none.1 hnone, ?_, ?_⟩
  · intro E
    unfold MessagePool.GetNonce
    rw [hnone, hrem]
  · intro hslot order fuel hrep hfuel
    obtain ⟨hrep1, hfuel1⟩ := Remove_bounds mp m fuel hrep hfuel
    exact Pending_without_sender (mp.Remove m) (SlotConsistent_Remove mp m hslot)
      m.Message.From (by unfold senderOut; rw [hnone]) order fuel hrep1 hfuel1

/-- C17. Stale watermark hides pending messages: when sender `S` of `m` has a
message at its watermark `w`, which is `m`'s nonce, and a message at another
nonce, then after `Remove m` the set of `S` still exists, with `startNonce`
`w`, nothing at `w` and every other entry as before; its nonce walk stops at
once with no message, and `Pending` (in a pool whose messages sit in their own
slots, given enough steps for the walks) returns no message of `S`. -/
theorem stale_watermark_hides (mp : MessagePool σ) (m : SignedMessage) (s : msgSet)
    (hs : mp.pending.lookup m.Message.From = some s)
    (hw : m.Message.Nonce = s.startNonce) (_hstored : s.startNonce ∈ s.msgs)
    (hother : ∃ n, n ≠ s.startNonce ∧ n ∈ s.msgs) :
    ∃ s1, (mp.Remove m).pending.lookup m.Message.From = some s1 ∧
      s1.startNonce = s.startNonce ∧ s1.msgs.lookup s.startNonce = none ∧
      (∀ n, n ≠ s.startNonce → s1.msgs.lookup n = s.msgs.lookup n) ∧
      (∀ fuel, 0 < fuel → pendingWalk s1.msgs fuel s1.startNonce = some []) ∧
      (SlotConsistent mp.pending → ∀ (order : List Address) (fuel : Nat),
        (∀ a t, mp.pending.lookup a = some t →
          t.startNonce < uint64Size ∧ t.len < uint64Size) →
        (∀ a t, mp.pending.lookup a = some t → t.len < fuel) →
        ∃ out, (mp.Remove m).Pending order fuel = some out ∧
          ∀ x ∈ out, x.Message.From ≠ m.Message.From) := by
  obtain ⟨n, hne, hmem⟩ := hother
  have hpos : 0 < (s.msgs.erase m.Message.Nonce).keys.card := by
    apply Finset.card_pos.2
    exact ⟨n, Finmap.mem_keys.2 (Finmap.mem_erase.2 ⟨by rw [hw]; exact hne, hmem⟩)⟩
  have hrem : mp.Remove m =
      { pending := mp.pending.insert m.Message.From
          { msgs := s.msgs.erase m.Message.Nonce, startNonce := s.startNonce }
        cs := mp.cs } := by
    rcases Remove_cases mp m with ⟨hl, _⟩ | ⟨s0, hl, hc, _⟩ | ⟨s0, hl, _, hp⟩
    · rw [hs] at hl
      cases hl
    · rw [hs] at hl
      cases hl
      omega
    · rw [hs] at hl
      cases hl
      exact hp
  have hl1 : (mp.Remove m).pending.lookup m.Message.From =
      some { msgs := s.msgs.erase m.Message.Nonce, startNonce := s.startNonce } := by
    rw [hrem]
    exact Finmap.lookup_insert _
  have hgone : (s.msgs.erase m.Message.Nonce).lookup s.startNonce = none := by
    rw [← hw]
    exact Finmap.lookup_erase _ _
  have hwalk : ∀ fuel, 0 < fuel →
      pendingWalk (s.msgs.erase m.Message.Nonce) fuel s.startNonce = some [] := by
    intro fuel hfuel
    obtain ⟨f, rfl⟩ : ∃ f, fuel = f + 1 := ⟨fuel - 1, by omega⟩
    simp [pendingWalk, hgone]
  refine ⟨_, hl1, rfl, hgone, ?_, hwalk, ?_⟩
  · intro k hk
    exact Finmap.lookup_erase_ne (by rw [hw]; exact hk)
  · intro hslot order fuel hrep hfuel
    obtain ⟨hrep1, hfuel1⟩ := Remove_bounds mp m fuel hrep hfuel
    refine Pending_without_sender (mp.Remove m) (SlotConsistent_Remove mp m hslot)
      m.Message.From ?_ order fuel hrep1 hfuel1
    unfold senderOut
    rw [hl1]
    unfold walkOut
    simp only []
    rw [hwalk _ (Nat.succ_pos _)]
    rfl

theorem demoTwo_lookup : demoTwo.pending.lookup 2 = some (demoSet 2 4 [4]) := by rfl

theorem demoTwo_reachable : Reachable demoEnv [] demoTwo :=
  Reachable.add _ (Reachable.addMsgs _ _ _ _ Reachable.init)

theorem demoTwo_sets (a : Address) (t : msgSet) (ht : demoTwo.pending.lookup a = some t) :
    t.startNonce < uint64Size ∧ t.len < uint64Size ∧ t.len < 5 := by
  have hkeys : demoTwo.pending.keys = {1, 2} := by decide
  have ha : a ∈ demoTwo.pending.keys := Finmap.mem_keys.2 (Finmap.mem_of_lookup_eq_some ht)
  rw [hkeys] at ha
  simp only [Finset.mem_insert, Finset.mem_singleton] at ha
  rcases ha with rfl | rfl
  · have h1 : demoTwo.pending.lookup 1 = some (demoSet 1 5 [5, 6, 7, 9]) := by rfl
    rw [h1] at ht
    cases ht
    exact ⟨by decide, by decide, by decide⟩
  · rw [demoTwo_lookup] at ht
    cases ht
    exact ⟨by decide, by decide, by decide⟩

/-- Witness for `sender_cleanup`: sender 2 has one message, at nonce 4;
removing another message of sender 2 with nonce 4 drops the sender. -/
theorem sender_cleanup_witness :
    (demoTwo.Remove (demoMsg 2 4 [9])).pending.lookup 2 = none ∧
    (demoTwo.Remove (demoMsg 2 4 [9])).GetNonce demoEnv 2 = chainNonce demoEnv demoTwo.cs 2 ∧
    ∃ out, (demoTwo.Remove (demoMsg 2 4 [9])).Pending [1] 5 = some out ∧
      ∀ x ∈ out, x.Message.From ≠ 2 :=
  ⟨(sender_cleanup demoTwo (demoMsg 2 4 [9]) (demoSet 2 4 [4]) demoTwo_lookup
      (by decide) (by decide)).1,
    (sender_cleanup demoTwo (demoMsg 2 4 [9]) (demoSet 2 4 [4]) demoTwo_lookup
      (by decide) (by decide)).2.2.1 demoEnv,
    (sender_cleanup demoTwo (demoMsg 2 4 [9]) (demoSet 2 4 [4]) demoTwo_lookup
      (by decide) (by decide)).2.2.2
      (Reachable.slotConsistent demoEnv [] demoTwo demoTwo_reachable) [1] 5
      (fun a t ht => ⟨(demoTwo_sets a t ht).1, (demoTwo_sets a t ht).2.1⟩)
      (fun a t ht => (demoTwo_sets a t ht).2.2)⟩

/-- Witness for `stale_watermark_hides`: in the example pool (nonces 5, 6, 7,
9, watermark 5) removing the message at nonce 5 leaves the set with watermark 5
and `Pending` without any message of sender 1. -/
theorem stale_watermark_hides_witness :
    ∃ s1, (demoPool.Remove (demoMsg 1 5 [])).pending.lookup 1 = some s1 ∧
      s1.startNonce = 5 ∧ s1.msgs.lookup 5 = none ∧
      s1.msgs.lookup 6 = (demoSet 1 5 [5, 6, 7, 9]).msgs.lookup 6 ∧
      ∃ out, (demoPool.Remove (demoMsg 1 5 [])).Pending [1] 5 = some out ∧
        ∀ x ∈ out, x.Message.From ≠ 1 :=
  match stale_watermark_hides demoPool (demoMsg 1 5 []) (demoSet 1 5 [5, 6, 7, 9])
      demoPool_lookup rfl (by decide) ⟨6, by decide, by decide⟩ with
  | ⟨s1, h1, h2, h3, h4, _, h6⟩ =>
    ⟨s1, h1, h2, h3, h4 6 (by decide),
      h6 (Reachable.slotConsistent demoEnv [] demoPool
          (Reachable.addMsgs _ _ _ _ Reachable.init)) [1] 5
        (fun a t ht => by
          rw [(demoPool_gap a t ht).2]
          exact ⟨by decide, by decide⟩)
        (fun a t ht => by
          rw [(demoPool_gap a t ht).2]
          decide)⟩

/-! ## `GetNonce` and gaps -/

/-- C15. A sender with a gap receives a next nonce beyond the gap: in a
reachable pool whose stored nonces are `uint64` values, if the set of `S` has
no message at some nonce `y` at or above the watermark and a message at some
nonce `x` above `y`, and `g` is the first nonce at or above the watermark
without a message (where `Pending` stops for `S`), then `GetNonce` returns
`startNonce + len(msgs)`, without overflow, and this value is strictly greater
than `g`. -/
theorem GetNonce_gap_too_high (E : ChainDeps σ) (cs0 : σ) (mp : MessagePool σ)
    (hr : Reachable E cs0 mp) (S : Address) (s : msgSet)
    (hs : mp.pending.lookup S = some s)
    (hrange : ∀ n, n ∈ s.msgs → n < uint64Size)
    (y x : Nat) (hy : s.startNonce ≤ y) (hyx : y < x) (hmiss : y ∉ s.msgs) (hx : x ∈ s.msgs)
    (g : Nat) (hg : IsFirstGap s g) :
    mp.GetNonce E S = .ok (s.startNonce + s.len) ∧ g < s.startNonce + s.len := by
  obtain ⟨hwg, _, hgnone, hrun⟩ := hg
  have hlow := Reachable.watermarkLowerBound E cs0 mp hr S s hs
  have hgy : g ≤ y := by
    by_contra hcon
    exact hmiss (hrun y hy (by omega))
  have hgmem : g ∉ s.msgs := Finmap.lookup_eq_none.1 hgnone
  have hsub1 : insert x (Finset.Ico s.startNonce g) ⊆ s.msgs.keys := by
    intro n hn
    rcases Finset.mem_insert.1 hn with rfl | hn
    · exact Finmap.mem_keys.2 hx
    · obtain ⟨h1, h2⟩ := Finset.mem_Ico.1 hn
      exact Finmap.mem_keys.2 (hrun n h1 h2)
  have hcard1 : g - s.startNonce + 1 ≤ s.len := by
    have h := Finset.card_le_card hsub1
    rw [Finset.card_insert_of_not_mem (by
      intro hmem
      have := (Finset.mem_Ico.1 hmem).2
      omega), Nat.card_Ico] at h
    exact h
  have hsub2 : s.msgs.keys ⊆ (Finset.Ico s.startNonce uint64Size).erase g := by
    intro n hn
    have hn1 : n ∈ s.msgs := Finmap.mem_keys.1 hn
    refine Finset.mem_erase.2 ⟨fun h => hgmem (h ▸ hn1), Finset.mem_Ico.2 ⟨hlow n hn1, hrange n hn1⟩⟩
  have hxN : x < uint64Size := hrange x hx
  have hcard2 : s.len ≤ uint64Size - s.startNonce - 1 := by
    have h := Finset.card_le_card hsub2
    rw [Finset.card_erase_of_mem (Finset.mem_Ico.2 ⟨hwg, by omega⟩), Nat.card_Ico] at h
    exact h
  have hno : s.startNonce + s.len < uint64Size := by omega
  refine ⟨?_, by omega⟩
  simp only [MessagePool.GetNonce, hs, Nat.mod_eq_of_lt hno]

theorem demoSet_keys : (demoSet 1 5 [5, 6, 7, 9]).msgs.keys = {5, 6, 7, 9} := by decide

theorem demoSet_range (n : Nat) (hn : n ∈ (demoSet 1 5 [5, 6, 7, 9]).msgs) :
    n < uint64Size := by
  have h := Finmap.mem_keys.2 hn
  rw [demoSet_keys] at h
  simp only [Finset.mem_insert, Finset.mem_singleton] at h
  rcases h with rfl | rfl | rfl | rfl <;> decide

/-- Witness for `GetNonce_gap_too_high`: the example pool (nonces 5, 6, 7, 9,
gap at 8) answers 9 for sender 1, beyond the gap. -/
theorem GetNonce_gap_too_high_witness :
    demoPool.GetNonce demoEnv 1 = .ok 9 ∧ 8 < 9 :=
  GetNonce_gap_too_high demoEnv [] demoPool (Reachable.addMsgs _ _ _ _ Reachable.init) 1
    (demoSet 1 5 [5, 6, 7, 9]) demoPool_lookup demoSet_range 8 9 (by decide) (by decide)
    (by decide) (by decide) 8 demoSet_firstGap

/-- C19. `GetNonce` is a fresh nonce exactly when the set is contiguous: in a
reachable pool, for a sender with a set of `k` messages and watermark `w` with
`w + k` below `2 ^ 64`, `GetNonce` returns `w + k`; this value is greater than
every stored nonce of the sender if and only if the stored nonces are exactly
`w, ..., w + k - 1`, in which case it is the largest stored nonce plus one;
otherwise it is less than or equal to the largest stored nonce. -/
theorem GetNonce_fresh_iff_contiguous (E : ChainDeps σ) (cs0 : σ) (mp : MessagePool σ)
    (hr : Reachable E cs0 mp) (S : Address) (s : msgSet)
    (hs : mp.pending.lookup S = some s) (hno : s.startNonce + s.len < uint64Size) :
    mp.GetNonce E S = .ok (s.startNonce + s.len) ∧
    ((∀ n, n ∈ s.msgs → n < s.startNonce + s.len) ↔
      s.msgs.keys = Finset.Ico s.startNonce (s.startNonce + s.len)) ∧
    (s.msgs.keys = Finset.Ico s.startNonce (s.startNonce + s.len) →
      ∃ mx, mx ∈ s.msgs ∧ (∀ n, n ∈ s.msgs → n ≤ mx) ∧ s.startNonce + s.len = mx + 1) ∧
    (s.msgs.keys ≠ Finset.Ico s.startNonce (s.startNonce + s.len) →
      ∃ mx, mx ∈ s.msgs ∧ (∀ n, n ∈ s.msgs → n ≤ mx) ∧ s.startNonce + s.len ≤ mx) := by
  have hlow := Reachable.watermarkLowerBound E cs0 mp hr S s hs
  have hpos : 0 < s.len := Reachable.nonEmptySets E cs0 mp hr S s hs
  have hiff : (∀ n, n ∈ s.msgs → n < s.startNonce + s.len) ↔
      s.msgs.keys = Finset.Ico s.startNonce (s.startNonce + s.len) := by
    constructor
    · intro hall
      apply Finset.eq_of_subset_of_card_le
      · intro n hn
        have hn1 := Finmap.mem_keys.1 hn
        exact Finset.mem_Ico.2 ⟨hlow n hn1, hall n hn1⟩
      · rw [Nat.card_Ico]
        unfold msgSet.len
        omega
    · intro heq n hn
      have h := Finmap.mem_keys.2 hn
      rw [heq] at h
      exact (Finset.mem_Ico.1 h).2
  refine ⟨?_, hiff, ?_, ?_⟩
  · simp only [MessagePool.GetNonce, hs, Nat.mod_eq_of_lt hno]
  · intro heq
    refine ⟨s.startNonce + s.len - 1, ?_, ?_, by omega⟩
    · apply Finmap.mem_keys.1
      rw [heq]
      exact Finset.mem_Ico.2 ⟨by omega, by omega⟩
    · intro n hn
      have := hiff.2 heq n hn
      omega
  · intro hneq
    have hne : s.msgs.keys.Nonempty := Finset.card_pos.1 hpos
    have hex : ∃ n, n ∈ s.msgs ∧ s.startNonce + s.len ≤ n := by
      by_contra hcon
      apply hneq
      apply hiff.1
      intro n hn
      by_contra hlt
      exact hcon ⟨n, hn, Nat.le_of_not_lt hlt⟩
    obtain ⟨n, hn, hle⟩ := hex
    refine ⟨s.msgs.keys.max' hne, Finmap.mem_keys.1 (Finset.max'_mem _ hne), ?_, ?_⟩
    · intro k hk
      exact Finset.le_max' _ k (Finmap.mem_keys.2 hk)
    · exact Nat.le_trans hle (Finset.le_max' _ n (Finmap.mem_keys.2 hn))

/-- Witness for `GetNonce_fresh_iff_contiguous`: sender 2 of the example pool
holds the single nonce 4 and is answered 5; sender 1 holds 5, 6, 7, 9 and is
answered 9, which is not beyond its largest nonce. -/
theorem GetNonce_fresh_iff_contiguous_witness :
    demoTwo.GetNonce demoEnv 2 = .ok 5 ∧
    (∃ mx, mx ∈ (demoSet 2 4 [4]).msgs ∧ (∀ n, n ∈ (demoSet 2 4 [4]).msgs → n ≤ mx) ∧
      4 + 1 = mx + 1) ∧
    ∃ mx, mx ∈ (demoSet 1 5 [5, 6, 7, 9]).msgs ∧
      (∀ n, n ∈ (demoSet 1 5 [5, 6, 7, 9]).msgs → n ≤ mx) ∧ 5 + 4 ≤ mx :=
  ⟨(GetNonce_fresh_iff_contiguous demoEnv [] demoTwo demoTwo_reachable 2 (demoSet 2 4 [4])
      demoTwo_lookup (by decide)).1,
    (GetNonce_fresh_iff_contiguous demoEnv [] demoTwo demoTwo_reachable 2 (demoSet 2 4 [4])
      demoTwo_lookup (by decide)).2.2.1 (by decide),
    (GetNonce_fresh_iff_contiguous demoEnv [] demoPool
      (Reachable.addMsgs _ _ _ _ Reachable.init) 1 (demoSet 1 5 [5, 6, 7, 9])
      demoPool_lookup (by decide)).2.2.2 (by decide)⟩


/-! ## Contiguity of `Pending` -/

theorem walkOut_eq_storedRun (s : msgSet) (g : Nat) (hg : IsFirstGap s g)
    (hlen : s.len < uint64Size) : walkOut s = storedRun s g := by
  have hstart : s.startNonce < uint64Size := Nat.lt_of_le_of_lt hg.1 hg.2.1
  have h1 := (pendingWalk_terminates s hstart hlen).1 (s.len + (g - s.startNonce) + 1)
    (by omega)
  have h2 := pendingWalk_firstGap s g (s.len + (g - s.startNonce) + 1) hg (by omega)
  rw [h1] at h2
  exact Option.some.inj h2

theorem senderOut_from (pending : PendingMap) (hslot : SlotConsistent pending)
    (hrep : ∀ a s, pending.lookup a = some s → s.startNonce < uint64Size ∧ s.len < uint64Size)
    (a : Address) (m : SignedMessage) (hm : m ∈ senderOut pending a) : m.Message.From = a := by
  obtain ⟨s, n, hs, hn⟩ := mem_senderOut hrep hm
  exact (hslot a s n m hs hn).1

theorem filter_flatMap_senderOut (pending : PendingMap) (hslot : SlotConsistent pending)
    (hrep : ∀ a s, pending.lookup a = some s → s.startNonce < uint64Size ∧ s.len < uint64Size)
    (S : Address) :
    ∀ l : List Address, l.Nodup →
      (l.flatMap (senderOut pending)).filter (fun m => decide (m.Message.From = S)) =
        if S ∈ l then senderOut pending S else [] := by
  intro l
  induction l with
  | nil => intro _; simp
  | cons a rest ih =>
    intro hnd
    obtain ⟨hnot, hnd2⟩ := List.nodup_cons.1 hnd
    rw [List.flatMap_cons, List.filter_append, ih hnd2]
    by_cases hSa : S = a
    · subst hSa
      have hself : (senderOut pending S).filter (fun m => decide (m.Message.From = S)) =
          senderOut pending S := by
        apply List.filter_eq_self.2
        intro m hm
        simp [senderOut_from pending hslot hrep S m hm]
      rw [hself]
      simp [hnot]
    · have hother : (senderOut pending a).filter (fun m => decide (m.Message.From = S)) = [] := by
        apply List.filter_eq_nil_iff.2
        intro m hm
        simp [senderOut_from pending hslot hrep a m hm, Ne.symm hSa]
      rw [hother]
      simp [hSa]

/-- C3. Pending contiguity: in a pool whose stored messages sit in their own
slots and whose sets are within the range of Go's types, let `g` be the
smallest nonce at or above the watermark `w` of sender `S` at which `S` has no
stored message. Then `Pending` returns (for every iteration order of the map
and enough fuel for the walks), and the messages of `S` in its output are
exactly the messages stored for `S` at the nonces `w, ..., g - 1`, in
increasing order; no message of `S` with a nonce at or above `g` is returned.
Nothing is asked of the other senders' nonces. -/
theorem Pending_contiguity (mp : MessagePool σ) (order : List Address)
    (hord : IsRangeOrder mp.pending order) (hslot : SlotConsistent mp.pending)
    (fuel : Nat)
    (hrep : ∀ a t, mp.pending.lookup a = some t →
      t.startNonce < uint64Size ∧ t.len < uint64Size)
    (hfuel : ∀ a t, mp.pending.lookup a = some t → t.len < fuel)
    (S : Address) (s : msgSet) (hs : mp.pending.lookup S = some s)
    (g : Nat) (hg : IsFirstGap s g) :
    ∃ out, mp.Pending order fuel = some out ∧
      out.filter (fun m => decide (m.Message.From = S)) =
        (List.range' s.startNonce (g - s.startNonce)).filterMap
          (fun n => s.msgs.lookup n) ∧
      ∀ m ∈ out, m.Message.From = S → m.Message.Nonce < g := by
  have hrun := pendingLoop_flatMap mp.pending fuel
    (fun a t ht => (pendingWalk_terminates t (hrep a t ht).1 (hrep a t ht).2).1 fuel
      (hfuel a t ht)) order []
  have hS : S ∈ order := (hord.2 S).2 (Finmap.mem_of_lookup_eq_some hs)
  have hso : senderOut mp.pending S = storedRun s g := by
    unfold senderOut
    rw [hs]
    exact walkOut_eq_storedRun s g hg (hrep S s hs).2
  have hfil : (order.flatMap (senderOut mp.pending)).filter
      (fun m => decide (m.Message.From = S)) = storedRun s g := by
    rw [filter_flatMap_senderOut mp.pending hslot hrep S order hord.1, if_pos hS, hso]
  refine ⟨order.flatMap (senderOut mp.pending), by simpa [MessagePool.Pending] using hrun,
    hfil, ?_⟩
  intro m hm hfrom
  have hmem : m ∈ (order.flatMap (senderOut mp.pending)).filter
      (fun m => decide (m.Message.From = S)) :=
    List.mem_filter.2 ⟨hm, by simp [hfrom]⟩
  rw [hfil] at hmem
  obtain ⟨n, _, hlt, hn⟩ := mem_storedRun hmem
  rw [(hslot S s n m hs hn).2]
  exact hlt

theorem demoWrap_reachable : Reachable demoEnv [] demoWrap :=
  Reachable.add _ (Reachable.addMsgs _ _ _ _ Reachable.init)

theorem demoWrap_lookup : demoWrap.pending.lookup 1 = some (demoSet 1 5 [5, 6, 7, 9]) := by rfl

theorem demoWrap_order : IsRangeOrder demoWrap.pending [2, 1] := by
  have hkeys : demoWrap.pending.keys = {1, 2} := by decide
  refine ⟨by decide, fun a => ?_⟩
  rw [← Finmap.mem_keys, hkeys]
  simp only [List.mem_cons, List.mem_singleton, List.not_mem_nil, or_false, Finset.mem_insert,
    Finset.mem_singleton]
  exact Or.comm

theorem demoWrap_sets (a : Address) (t : msgSet) (ht : demoWrap.pending.lookup a = some t) :
    t.startNonce < uint64Size ∧ t.len < uint64Size ∧ t.len < 5 := by
  have hkeys : demoWrap.pending.keys = {1, 2} := by decide
  have ha : a ∈ demoWrap.pending.keys := Finmap.mem_keys.2 (Finmap.mem_of_lookup_eq_some ht)
  rw [hkeys] at ha
  simp only [Finset.mem_insert, Finset.mem_singleton] at ha
  rcases ha with rfl | rfl
  · rw [demoWrap_lookup] at ht
    cases ht
    exact ⟨by decide, by decide, by decide⟩
  · have h2 : demoWrap.pending.lookup 2 = some (demoSet 2 18446744073709551615
        [18446744073709551615]) := by rfl
    rw [h2] at ht
    cases ht
    exact ⟨by decide, by decide, by decide⟩

/-- Witness for `Pending_contiguity`: the example of section 8 for sender 1
(nonces 5, 6, 7 and 9 with watermark 5 yield the messages at 5, 6 and 7), in a
pool where sender 2 holds a message at nonce `2 ^ 64 - 1` and so has no missing
nonce at or above its watermark. -/
theorem Pending_contiguity_witness :
    demoWrap.Pending [2, 1] 5 =
      some [demoMsg 2 18446744073709551615 [], demoMsg 1 5 [], demoMsg 1 6 [],
        demoMsg 1 7 []] ∧
    ∃ out, demoWrap.Pending [2, 1] 5 = some out ∧
      out.filter (fun m => decide (m.Message.From = 1)) =
        (List.range' 5 (8 - 5)).filterMap (fun n => (demoSet 1 5 [5, 6, 7, 9]).msgs.lookup n) ∧
      ∀ m ∈ out, m.Message.From = 1 → m.Message.Nonce < 8 :=
  ⟨by decide,
    Pending_contiguity demoWrap [2, 1] demoWrap_order
      (Reachable.slotConsistent demoEnv [] demoWrap demoWrap_reachable) 5
      (fun a t ht => ⟨(demoWrap_sets a t ht).1, (demoWrap_sets a t ht).2.1⟩)
      (fun a t ht => (demoWrap_sets a t ht).2.2)
      1 (demoSet 1 5 [5, 6, 7, 9]) demoWrap_lookup 8 demoSet_firstGap⟩

/-! ## Reorg round-trip -/

/-- C4. Reorg round-trip: let block `B` resolve to messages among which is `M`,
with no two different messages of the same sender and nonce (as on the chain),
and let `Add` succeed for every message of `B` (signatures verify, storage
succeeds). Then from every pool state, `HeadChange` with `B` applied followed
by `HeadChange` with `B` reverted both return no error, and afterwards the set
of `M`'s sender stores `M` at `M`'s nonce. -/
theorem reorg_round_trip (E : ChainDeps σ) (mp : MessagePool σ) (B : BlockHeader)
    (msgs : List SignedMessage) (M : SignedMessage)
    (hres : E.MessagesForBlock mp.cs B = .ok msgs) (hM : M ∈ msgs)
    (hdistinct : NoDuplicateSlot msgs)
    (hok : ∀ (p : MessagePool σ) m, m ∈ msgs → (p.Add E m).1 = none) :
    (mp.HeadChange E [] [{ blks := [B] }]).1 = none ∧
    ((mp.HeadChange E [] [{ blks := [B] }]).2.HeadChange E [{ blks := [B] }] []).1 = none ∧
    ∃ s, ((mp.HeadChange E [] [{ blks := [B] }]).2.HeadChange E
        [{ blks := [B] }] []).2.pending.lookup M.Message.From = some s ∧
      s.msgs.lookup M.Message.Nonce = some M := by
  obtain ⟨l1, l2, hsplit⟩ := List.append_of_mem hM
  subst hsplit
  have hlast : ∀ x ∈ l2, SameSlot x M → x = M := fun x hx hs =>
    hdistinct x (List.mem_append_right _ (List.mem_cons_of_mem _ hx)) M hM hs
  have e1 := HeadChange_apply_one E mp B _ hres
  have hres2 : E.MessagesForBlock (removeMsgs mp (l1 ++ M :: l2)).cs B = .ok (l1 ++ M :: l2) := by
    rw [removeMsgs_cs]; exact hres
  obtain ⟨h1, h2⟩ := SlotHolds_addMsgs_last E M l1 l2 hok hlast (removeMsgs mp (l1 ++ M :: l2))
  have e2 := HeadChange_revert_one E _ B _ hres2 h1
  rw [e1]
  refine ⟨rfl, ?_⟩
  show ((removeMsgs mp (l1 ++ M :: l2)).HeadChange E [{ blks := [B] }] []).1 = none ∧
    ∃ s, ((removeMsgs mp (l1 ++ M :: l2)).HeadChange E
        [{ blks := [B] }] []).2.pending.lookup M.Message.From = some s ∧
      s.msgs.lookup M.Message.Nonce = some M
  rw [e2]
  exact ⟨rfl, h2⟩

theorem demoChain_Add_ok (p : MessagePool DemoStore) (m : SignedMessage)
    (hm : m ∈ [demoMsg 1 5 [], demoMsg 1 6 [], demoMsg 2 5 []]) :
    (p.Add demoChain m).1 = none := by
  simp only [List.mem_cons, List.mem_singleton, List.not_mem_nil, or_false] at hm
  rcases hm with rfl | rfl | rfl <;> rfl

theorem demoBlock4_distinct :
    NoDuplicateSlot [demoMsg 1 5 [], demoMsg 1 6 [], demoMsg 2 5 []] := by
  unfold NoDuplicateSlot SameSlot
  decide

/-- Witness for `reorg_round_trip`: block 4 of the example chain (three
messages in three slots) and its first message, from the example pool, which
already holds a message of sender 1 at nonce 5. -/
theorem reorg_round_trip_witness :
    (demoPool.HeadChange demoChain [] [{ blks := [{ Cid := 4 }] }]).1 = none ∧
    ((demoPool.HeadChange demoChain [] [{ blks := [{ Cid := 4 }] }]).2.HeadChange
      demoChain [{ blks := [{ Cid := 4 }] }] []).1 = none ∧
    ∃ s, ((demoPool.HeadChange demoChain []
        [{ blks := [{ Cid := 4 }] }]).2.HeadChange demoChain
        [{ blks := [{ Cid := 4 }] }] []).2.pending.lookup 1 = some s ∧
      s.msgs.lookup 5 = some (demoMsg 1 5 []) :=
  reorg_round_trip demoChain demoPool { Cid := 4 }
    [demoMsg 1 5 [], demoMsg 1 6 [], demoMsg 2 5 []] (demoMsg 1 5 []) (by rfl) (by decide)
    demoBlock4_distinct demoChain_Add_ok

/-! ## Frame of `Remove` -/

theorem erase_keys_card_zero (s : msgSet) (k : Nat) (h : ∀ n, n ∈ s.msgs → n = k) :
    (s.msgs.erase k).keys.card = 0 := by
  apply Finset.card_eq_zero.2
  apply Finset.eq_empty_of_forall_not_mem
  intro x hx
  obtain ⟨hne, hmem⟩ := Finmap.mem_erase.1 (Finmap.mem_keys.1 hx)
  exact hne (h x hmem)

/-- C9. Frame of `Remove`: `Remove m` changes nothing but the slot
(`m.From`, `m.Nonce`). When the sender's set holds an entry at another nonce,
the set is still there afterwards, with the `startNonce` it had before (also
when the removed nonce is the watermark), no entry at `m`'s nonce and every
other entry unchanged; whenever the sender has a set before and after, the set
afterwards is the old one without the entry at `m`'s nonce; the set is dropped
only when it holds no entry at another nonce; a sender without a set stays
without one; the sets of all other senders and the chain store are
unchanged. -/
theorem Remove_frame (mp : MessagePool σ) (m : SignedMessage) :
    (∀ s, mp.pending.lookup m.Message.From = some s →
      (∃ n, n ≠ m.Message.Nonce ∧ n ∈ s.msgs) →
      ∃ s1, (mp.Remove m).pending.lookup m.Message.From = some s1 ∧
        s1.startNonce = s.startNonce ∧ s1.msgs = s.msgs.erase m.Message.Nonce ∧
        s1.msgs.lookup m.Message.Nonce = none ∧
        ∀ n, n ≠ m.Message.Nonce → s1.msgs.lookup n = s.msgs.lookup n) ∧
    (∀ s s1, mp.pending.lookup m.Message.From = some s →
      (mp.Remove m).pending.lookup m.Message.From = some s1 →
      s1.startNonce = s.startNonce ∧ s1.msgs = s.msgs.erase m.Message.Nonce ∧
        ∀ n, n ≠ m.Message.Nonce → s1.msgs.lookup n = s.msgs.lookup n) ∧
    (∀ s, mp.pending.lookup m.Message.From = some s →
      (∀ n, n ∈ s.msgs → n = m.Message.Nonce) →
      (mp.Remove m).pending.lookup m.Message.From = none) ∧
    (mp.pending.lookup m.Message.From = none →
      (mp.Remove m).pending.lookup m.Message.From = none) ∧
    (∀ a, a ≠ m.Message.From → (mp.Remove m).pending.lookup a = mp.pending.lookup a) ∧
    (mp.Remove m).cs = mp.cs := by
  rcases Remove_cases mp m with ⟨hl, hp⟩ | ⟨s0, hl, hc, hp⟩ | ⟨s0, hl, hc, hp⟩
  · rw [hp]
    refine ⟨?_, ?_, ?_, fun h => h, fun _ _ => rfl, rfl⟩
    · intro s hs
      rw [hl] at hs
      cases hs
    · intro s s1 hs
      rw [hl] at hs
      cases hs
    · intro s hs
      rw [hl] at hs
      cases hs
  · rw [hp]
    refine ⟨?_, ?_, fun _ _ _ => Finmap.lookup_erase _ _, fun _ => Finmap.lookup_erase _ _,
      fun a ha => Finmap.lookup_erase_ne ha, rfl⟩
    · intro s hs hother
      rw [hl] at hs
      cases hs
      obtain ⟨n, hne, hmem⟩ := hother
      have hpos : 0 < (s0.msgs.erase m.Message.Nonce).keys.card :=
        Finset.card_pos.2 ⟨n, Finmap.mem_keys.2 (Finmap.mem_erase.2 ⟨hne, hmem⟩)⟩
      omega
    · intro s s1 _ h2
      simp [Finmap.lookup_erase] at h2
  · rw [hp]
    refine ⟨?_, ?_, ?_, ?_, fun a ha => Finmap.lookup_insert_of_ne _ ha, rfl⟩
    · intro s hs _
      rw [hl] at hs
      cases hs
      exact ⟨_, Finmap.lookup_insert _, rfl, rfl, Finmap.lookup_erase _ _,
        fun n hn => Finmap.lookup_erase_ne hn⟩
    · intro s s1 h1 h2
      simp only [] at h2
      rw [Finmap.lookup_insert] at h2
      rw [hl] at h1
      cases h1
      cases h2
      exact ⟨rfl, rfl, fun n hn => Finmap.lookup_erase_ne hn⟩
    · intro s hs hall
      rw [hl] at hs
      cases hs
      have := erase_keys_card_zero s0 m.Message.Nonce hall
      omega
    · intro hnone
      rw [hl] at hnone
      cases hnone

theorem demoTwo_lookup_one : demoTwo.pending.lookup 1 = some (demoSet 1 5 [5, 6, 7, 9]) := by
  rfl

/-- Witness for `Remove_frame` on the example pool with two senders: removing
the message of sender 1 at nonce 6 keeps the set of sender 1 with watermark 5
and the entries at 5, 7 and 9, and keeps the set of sender 2; removing the
message at the watermark 5 keeps `startNonce` at 5. -/
theorem Remove_frame_witness :
    (∃ s1, (demoTwo.Remove (demoMsg 1 6 [])).pending.lookup 1 = some s1 ∧
      s1.startNonce = 5 ∧ s1.msgs.lookup 6 = none ∧
      s1.msgs.lookup 5 = some (demoMsg 1 5 []) ∧ s1.msgs.lookup 7 = some (demoMsg 1 7 []) ∧
      s1.msgs.lookup 9 = some (demoMsg 1 9 [])) ∧
    (demoTwo.Remove (demoMsg 1 6 [])).pending.lookup 2 = demoTwo.pending.lookup 2 ∧
    ∃ s1, (demoTwo.Remove (demoMsg 1 5 [])).pending.lookup 1 = some s1 ∧ s1.startNonce = 5 :=
  ⟨match (Remove_frame demoTwo (demoMsg 1 6 [])).1 (demoSet 1 5 [5, 6, 7, 9])
        demoTwo_lookup_one ⟨5, by decide, by decide⟩ with
    | ⟨s1, h1, h2, _, h4, h5⟩ =>
      ⟨s1, h1, h2, h4, (h5 5 (by decide)).trans (by rfl), (h5 7 (by decide)).trans (by rfl),
        (h5 9 (by decide)).trans (by rfl)⟩,
    (Remove_frame demoTwo (demoMsg 1 6 [])).2.2.2.2.1 2 (by decide),
    match (Remove_frame demoTwo (demoMsg 1 5 [])).1 (demoSet 1 5 [5, 6, 7, 9])
        demoTwo_lookup_one ⟨6, by decide, by decide⟩ with
    | ⟨s1, h1, h2, _⟩ => ⟨s1, h1, h2⟩⟩

/-! ## `HeadChange` and the mutex -/

theorem Call.effect_Add (E : ChainDeps σ) (m : SignedMessage) (p : MessagePool σ) :
    (Call.Add m).effect E p = (p.Add E m).2 := rfl

theorem Call.effect_Remove (E : ChainDeps σ) (m : SignedMessage) (p : MessagePool σ) :
    (Call.Remove m).effect E p = p.Remove m := rfl

theorem Call.effect_MessagesForBlock (E : ChainDeps σ) (b : BlockHeader) (p : MessagePool σ) :
    (Call.MessagesForBlock b).effect E p = p := rfl

theorem runCalls_append (E : ChainDeps σ) (p : MessagePool σ) (l1 l2 : List Call) :
    runCalls E p (l1 ++ l2) = runCalls E (runCalls E p l1) l2 := by
  simp [runCalls, List.foldl_append]

theorem runCalls_cons (E : ChainDeps σ) (p : MessagePool σ) (c : Call) (l : List Call) :
    runCalls E p (c :: l) = runCalls E (c.effect E p) l := rfl

theorem runCalls_addMsgsCalls (E : ChainDeps σ) (msgs : List SignedMessage) :
    ∀ mp : MessagePool σ, runCalls E mp (addMsgsCalls E mp msgs) = (addMsgs E mp msgs).2 := by
  induction msgs with
  | nil => intro mp; rfl
  | cons msg rest ih =>
    intro mp
    rw [addMsgsCalls, addMsgs, runCalls_cons, Call.effect_Add]
    rcases hA : mp.Add E msg with ⟨_ | e, mp1⟩
    · exact ih mp1
    · rfl

theorem runCalls_revertBlocksCalls (E : ChainDeps σ) (bs : List BlockHeader) :
    ∀ mp : MessagePool σ,
      runCalls E mp (revertBlocksCalls E mp bs) = (revertBlocks E mp bs).2 := by
  induction bs with
  | nil => intro mp; rfl
  | cons b rest ih =>
    intro mp
    rw [revertBlocksCalls, revertBlocks, runCalls_cons, Call.effect_MessagesForBlock]
    cases hm : E.MessagesForBlock mp.cs b with
    | error e => rfl
    | ok msgs =>
      simp only []
      rw [runCalls_append, runCalls_addMsgsCalls]
      rcases hA : addMsgs E mp msgs with ⟨_ | e, mp1⟩
      · exact ih mp1
      · rfl

theorem runCalls_revertTipSetsCalls (E : ChainDeps σ) (tss : List TipSet) :
    ∀ mp : MessagePool σ,
      runCalls E mp (revertTipSetsCalls E mp tss) = (revertTipSets E mp tss).2 := by
  induction tss with
  | nil => intro mp; rfl
  | cons ts rest ih =>
    intro mp
    rw [revertTipSetsCalls, revertTipSets, runCalls_append, runCalls_revertBlocksCalls]
    rcases hA : revertBlocks E mp ts.Blocks with ⟨_ | e, mp1⟩
    · exact ih mp1
    · rfl

theorem runCalls_removeMsgsCalls (E : ChainDeps σ) (msgs : List SignedMessage) :
    ∀ mp : MessagePool σ, runCalls E mp (removeMsgsCalls msgs) = removeMsgs mp msgs := by
  induction msgs with
  | nil => intro mp; rfl
  | cons msg rest ih =>
    intro mp
    rw [removeMsgsCalls, List.map_cons, runCalls_cons, Call.effect_Remove, removeMsgs]
    exact ih _

theorem runCalls_applyBlocksCalls (E : ChainDeps σ) (bs : List BlockHeader) :
    ∀ mp : MessagePool σ,
      runCalls E mp (applyBlocksCalls E mp bs) = (applyBlocks E mp bs).2 := by
  induction bs with
  | nil => intro mp; rfl
  | cons b rest ih =>
    intro mp
    rw [applyBlocksCalls, applyBlocks, runCalls_cons, Call.effect_MessagesForBlock]
    cases hm : E.MessagesForBlock mp.cs b with
    | error e => rfl
    | ok msgs =>
      simp only []
      rw [runCalls_append, runCalls_removeMsgsCalls]
      exact ih _

theorem runCalls_applyTipSetsCalls (E : ChainDeps σ) (tss : List TipSet) :
    ∀ mp : MessagePool σ,
      runCalls E mp (applyTipSetsCalls E mp tss) = (applyTipSets E mp tss).2 := by
  induction tss with
  | nil => intro mp; rfl
  | cons ts rest ih =>
    intro mp
    rw [applyTipSetsCalls, applyTipSets, runCalls_append, runCalls_applyBlocksCalls]
    rcases hA : applyBlocks E mp ts.Blocks with ⟨_ | e, mp1⟩
    · exact ih mp1
    · rfl

theorem runCalls_HeadChangeCalls (E : ChainDeps σ) (mp : MessagePool σ)
    (revert apply : List TipSet) :
    runCalls E mp (HeadChangeCalls E mp revert apply) = (mp.HeadChange E revert apply).2 := by
  rw [HeadChangeCalls, MessagePool.HeadChange, runCalls_append, runCalls_revertTipSetsCalls]
  rcases hA : revertTipSets E mp revert with ⟨_ | e, mp1⟩
  · exact runCalls_applyTipSetsCalls E apply mp1
  · rfl

theorem mutexAfter_append (h : Option Nat) (a b : List (Nat × Event)) :
    mutexAfter h (a ++ b) =
      match mutexAfter h a with
      | none => none
      | some h1 => mutexAfter h1 b := by
  induction a generalizing h with
  | nil => rfl
  | cons te rest ih =>
    obtain ⟨t, e⟩ := te
    simp only [List.cons_append, mutexAfter]
    cases mutexStep h t e with
    | none => rfl
    | some h1 => exact ih h1

theorem poolAfter_append (E : ChainDeps σ) (p : MessagePool σ) (a b : List (Nat × Event)) :
    poolAfter E p (a ++ b) = poolAfter E (poolAfter E p a) b := by
  simp [poolAfter, List.foldl_append]

theorem eventsOf_nil (t : Nat) : eventsOf t [] = [] := rfl

theorem eventsOf_cons (t : Nat) (c : Call) (l : List Call) :
    eventsOf t (c :: l) = eventsOf t [c] ++ eventsOf t l := by
  simp [eventsOf, List.flatMap_cons]

theorem eventsOf_append (t : Nat) (l1 l2 : List Call) :
    eventsOf t (l1 ++ l2) = eventsOf t l1 ++ eventsOf t l2 := by
  simp [eventsOf, List.flatMap_append]

/-- A whole call, started with the mutex free, can happen and leaves it free. -/
theorem mutexAfter_call (t : Nat) (c : Call) : mutexAfter none (eventsOf t [c]) = some none := by
  cases c <;> simp [eventsOf, Call.events, mutexAfter, mutexStep]

/-- A method of the pool cannot start while another caller holds the mutex. -/
theorem mutexAfter_call_held (t u : Nat) (c : Call) (hc : c.locks = true)
    (rest : List (Nat × Event)) :
    mutexAfter (some u) (eventsOf t [c] ++ rest) = none := by
  cases c <;> simp [eventsOf, Call.events, mutexAfter, mutexStep, Call.locks] at hc ⊢

theorem mutexAfter_calls (t : Nat) (l : List Call) :
    mutexAfter none (eventsOf t l) = some none := by
  induction l with
  | nil => rfl
  | cons c rest ih =>
    rw [eventsOf_cons, mutexAfter_append, mutexAfter_call]
    exact ih

theorem poolAfter_call (E : ChainDeps σ) (p : MessagePool σ) (t : Nat) (c : Call) :
    poolAfter E p (eventsOf t [c]) = c.effect E p := by
  cases c <;> rfl

theorem poolAfter_calls (E : ChainDeps σ) (t : Nat) (l : List Call) :
    ∀ p : MessagePool σ, poolAfter E p (eventsOf t l) = runCalls E p l := by
  induction l with
  | nil => intro p; rfl
  | cons c rest ih =>
    intro p
    rw [eventsOf_cons, poolAfter_append, poolAfter_call, runCalls_cons]
    exact ih _

/-- C16, as amended. `HeadChange` does not run as a whole under the pool lock;
each `Add` and each `Remove` it performs is a locked section of its own. For
the calls made by one `HeadChange` of caller `hc`: (1) run in order they give
the pool `HeadChange` returns, and each pool access is made holding the mutex,
which is free at the end; (2) after any number of these calls a call of
another caller `other` can happen, the mutex being free, and it acts on the pool left
by the calls made so far; when it is a `GetNonce` or a `Pending`, `HeadChange`
then goes on with its remaining calls to the same result; (3) while an `Add`
or a `Remove` of `HeadChange` is in progress, the mutex held, no method of the
pool called by another caller can start. -/
theorem HeadChange_locks_per_step (E : ChainDeps σ) (mp : MessagePool σ)
    (revert apply : List TipSet) (hc other : Nat) :
    (runCalls E mp (HeadChangeCalls E mp revert apply) = (mp.HeadChange E revert apply).2 ∧
      mutexAfter none (eventsOf hc (HeadChangeCalls E mp revert apply)) = some none ∧
      poolAfter E mp (eventsOf hc (HeadChangeCalls E mp revert apply)) =
        (mp.HeadChange E revert apply).2) ∧
    (∀ (pre post : List Call) (c : Call), HeadChangeCalls E mp revert apply = pre ++ post →
      mutexAfter none (eventsOf hc pre ++ eventsOf other [c]) = some none ∧
      poolAfter E mp (eventsOf hc pre ++ eventsOf other [c]) = c.effect E (runCalls E mp pre) ∧
      (c.effect E (runCalls E mp pre) = runCalls E mp pre →
        mutexAfter none (eventsOf hc pre ++ eventsOf other [c] ++ eventsOf hc post) =
          some none ∧
        poolAfter E mp (eventsOf hc pre ++ eventsOf other [c] ++ eventsOf hc post) =
          (mp.HeadChange E revert apply).2)) ∧
    (∀ (pre post : List Call) (st c : Call) (rest : List (Nat × Event)),
      HeadChangeCalls E mp revert apply = pre ++ st :: post →
      st.locks = true → c.locks = true →
      mutexAfter none (eventsOf hc pre ++ [(hc, Event.Lock)]) = some (some hc) ∧
      mutexAfter none (eventsOf hc pre ++ [(hc, Event.Lock)] ++ (eventsOf other [c] ++ rest)) =
        none ∧
      mutexAfter none ((eventsOf hc pre ++ (eventsOf hc [st]).take 2) ++
        (eventsOf other [c] ++ rest)) = none) := by
  have hrun := runCalls_HeadChangeCalls E mp revert apply
  refine ⟨⟨hrun, mutexAfter_calls hc _, by rw [poolAfter_calls, hrun]⟩, ?_, ?_⟩
  · intro pre post c hsplit
    refine ⟨?_, ?_, ?_⟩
    · rw [mutexAfter_append, mutexAfter_calls]
      exact mutexAfter_call other c
    · rw [poolAfter_append, poolAfter_call, poolAfter_calls]
    · intro hquery
      constructor
      · rw [mutexAfter_append, mutexAfter_append, mutexAfter_calls]
        simp only []
        rw [mutexAfter_call]
        exact mutexAfter_calls hc post
      · rw [poolAfter_append, poolAfter_append, poolAfter_call, poolAfter_calls E hc pre, hquery,
          poolAfter_calls, ← runCalls_append, ← hsplit, hrun]
  · intro pre post st c rest _ hst hc1
    refine ⟨?_, ?_, ?_⟩
    · rw [mutexAfter_append, mutexAfter_calls]
      rfl
    · rw [mutexAfter_append, mutexAfter_append, mutexAfter_calls]
      simp only []
      have hlock : mutexAfter none [(hc, Event.Lock)] = some (some hc) := rfl
      rw [hlock]
      exact mutexAfter_call_held other hc c hc1 rest
    · rw [mutexAfter_append, mutexAfter_append, mutexAfter_calls]
      simp only []
      have htake : mutexAfter none ((eventsOf hc [st]).take 2) = some (some hc) := by
        cases st <;> simp [eventsOf, Call.events, mutexAfter, mutexStep, Call.locks] at hst ⊢
      rw [htake]
      exact mutexAfter_call_held other hc c hc1 rest

/-- Witness for `HeadChange_locks_per_step`: `HeadChange` of caller 1 reverting
block 4 of the example chain (three messages); a `Pending` of caller 2 can
happen after the first `Add`, and cannot start while the second `Add` holds the
mutex. -/
theorem HeadChange_locks_per_step_witness :
    mutexAfter none (eventsOf 1 [Call.MessagesForBlock { Cid := 4 }, Call.Add (demoMsg 1 5 [])] ++
      eventsOf 2 [Call.Pending] ++
      eventsOf 1 [Call.Add (demoMsg 1 6 []), Call.Add (demoMsg 2 5 [])]) = some none ∧
    mutexAfter none
      (eventsOf 1 [Call.MessagesForBlock { Cid := 4 }, Call.Add (demoMsg 1 5 [])] ++
        [(1, Event.Lock)] ++ (eventsOf 2 [Call.Pending] ++ [])) = none :=
  ⟨((HeadChange_locks_per_step demoChain (NewMessagePool demoChain [])
      [{ blks := [{ Cid := 4 }] }] [] 1 2).2.1
      [Call.MessagesForBlock { Cid := 4 }, Call.Add (demoMsg 1 5 [])]
      [Call.Add (demoMsg 1 6 []), Call.Add (demoMsg 2 5 [])] Call.Pending (by rfl)).2.2
      (by rfl) |>.1,
    ((HeadChange_locks_per_step demoChain (NewMessagePool demoChain [])
      [{ blks := [{ Cid := 4 }] }] [] 1 2).2.2
      [Call.MessagesForBlock { Cid := 4 }, Call.Add (demoMsg 1 5 [])]
      [Call.Add (demoMsg 2 5 [])] (Call.Add (demoMsg 1 6 [])) Call.Pending [] (by rfl)
      rfl rfl).2.1⟩

/-- Counterexample to C16 as stated: while caller 1 runs `HeadChange` reverting
block 4 of the example chain on the new pool, a `Pending` of caller 2 is
scheduled between the first and the second `Add`. The schedule can happen under
the mutex, its events of caller 1 are those of the `HeadChange` call, and the
`Pending` of caller 2 runs on a pool that holds the first message only: it
returns that message, where `Pending` before the `HeadChange` returns nothing
and after it returns all three messages. -/
theorem HeadChange_locks_counterexample :
    mutexAfter none (eventsOf 1 [Call.MessagesForBlock { Cid := 4 }, Call.Add (demoMsg 1 5 [])] ++
      eventsOf 2 [Call.Pending] ++
      eventsOf 1 [Call.Add (demoMsg 1 6 []), Call.Add (demoMsg 2 5 [])]) = some none ∧
    eventsOf 1 [Call.MessagesForBlock { Cid := 4 }, Call.Add (demoMsg 1 5 [])] ++
        eventsOf 1 [Call.Add (demoMsg 1 6 []), Call.Add (demoMsg 2 5 [])] =
      eventsOf 1 (HeadChangeCalls demoChain (NewMessagePool demoChain [])
        [{ blks := [{ Cid := 4 }] }] []) ∧
    (poolAfter demoChain (NewMessagePool demoChain [])
      (eventsOf 1 [Call.MessagesForBlock { Cid := 4 }, Call.Add (demoMsg 1 5 [])] ++
        [(2, Event.Lock)])).Pending [1, 2] 4 = some [demoMsg 1 5 []] ∧
    (NewMessagePool demoChain []).Pending [1, 2] 4 = some [] ∧
    ((NewMessagePool demoChain []).HeadChange demoChain
        [{ blks := [{ Cid := 4 }] }] []).2.Pending [1, 2] 4 =
      some [demoMsg 1 5 [], demoMsg 1 6 [], demoMsg 2 5 []] := by
  refine ⟨by rfl, by rfl, by rfl, by rfl, by rfl⟩

end Chain
